import Mathlib

/-!
A verification development for the buddy-system allocator crate
(byte heap in src/lib.rs, frame allocator in src/frame.rs).

The machine model is a 64-bit platform: `usize` is 64 bits wide and
`size_of::<usize>() = 8`.  Machine integers are modelled as `Nat`; the
only place where two's-complement wrap-around matters is the computation
`current & (!current + 1)` of the lowest set bit, which is modelled
explicitly modulo `2 ^ 64`.  Fallible operations (Rust panics: failed
asserts, out-of-bounds indexing into the 32-entry free-list array,
arithmetic that can only diverge) are modelled with `Option`; loops are
modelled by structural recursion on an explicit counter that is always
large enough for the loop as written, so that `none` means the Rust code
panics or diverges and `some` means it runs to completion.
-/

/-! ## Bit utilities (src/lib.rs: prev_power_of_two, usize intrinsics) -/

/-- Number of bits needed to write `n` in binary; counter-indexed so that the
recursion is structural.  For `n < 2 ^ fuel` this is the exact bit length,
matching `bitwidth - leading_zeros(n)` on a 64-bit machine when `fuel = 64`. -/
def bitLenAux : Nat → Nat → Nat
  | 0, _ => 0
  | fuel + 1, n => if n = 0 then 0 else bitLenAux fuel (n / 2) + 1

/-- Bit length of a `usize` value (64-bit machine). -/
def bitLen (n : Nat) : Nat := bitLenAux 64 n

/-- Rust `usize::leading_zeros` on a 64-bit machine. -/
def leading_zeros (n : Nat) : Nat := 64 - bitLen n

/-- src/lib.rs `prev_power_of_two(num)`:
`1 << (8 * size_of::<usize>() - num.leading_zeros() as usize - 1)`. -/
def prev_power_of_two (num : Nat) : Nat :=
  1 <<< (8 * 8 - leading_zeros num - 1)

/-- Rust `usize::next_power_of_two`.  Returns 1 on 0 and 1, else the least
power of two that is `≥ n`, i.e. `2 ^ (64 - (n-1).leading_zeros())`. -/
def next_power_of_two (n : Nat) : Nat :=
  if n ≤ 1 then 1 else 2 ^ bitLen (n - 1)

/-- Counter-indexed helper for `usize::trailing_zeros` on nonzero input. -/
def tzAux : Nat → Nat → Nat
  | 0, _ => 0
  | fuel + 1, n => if n % 2 = 1 then 0 else tzAux fuel (n / 2) + 1

/-- Rust `usize::trailing_zeros` on a 64-bit machine: 64 on input 0. -/
def trailing_zeros (n : Nat) : Nat := if n = 0 then 64 else tzAux 64 n

/-- The expression `current & (!current + 1)` of src/lib.rs / src/frame.rs,
on 64-bit `usize`: `!c + 1` is two's-complement negation, i.e.
`(2^64 - c) % 2^64` for `c < 2^64`. -/
def lowbit (c : Nat) : Nat := c &&& ((2 ^ 64 - c) % 2 ^ 64)

/-! ## The free-list array

Both allocators keep an array of 32 per-class containers
(`[linked_list::LinkedList; 32]` resp. `[BTreeSet<usize>; 32]`).  Either
container is modelled as a `List Nat` of block positions: the intrusive
linked list pushes/pops at the head; the `BTreeSet` keeps the list sorted
and duplicate-free via `btInsert` and yields its minimum first.
Array indexing is modelled by `getL`, with `none` for the Rust
index-out-of-bounds panic. -/

abbrev FL := List (List Nat)

/-- Indexing `self.free_list[i]`; `none` models the bounds-check panic. -/
def getL (fl : FL) (i : Nat) : Option (List Nat) := fl[i]?

/-- Writing back entry `i` of the free-list array. -/
def setL (fl : FL) (i : Nat) (l : List Nat) : FL := fl.set i l

/-- The contents of class `k` (empty list when out of bounds). -/
def classList (fl : FL) (k : Nat) : List Nat := (getL fl k).getD []

/-- `BTreeSet::insert`: sorted insertion without duplicates. -/
def btInsert (x : Nat) : List Nat → List Nat
  | [] => [x]
  | y :: ys => if x < y then x :: y :: ys else if x = y then y :: ys else y :: btInsert x ys

/-- Total size of all blocks held in the free lists (class `k` blocks have
size `2 ^ k`); exponent-indexed over the array. -/
def freeSumAux : Nat → FL → Nat
  | _, [] => 0
  | k, l :: fls => 2 ^ k * l.length + freeSumAux (k + 1) fls

def freeSum (fl : FL) : Nat := freeSumAux 0 fl

/-! ## The byte heap (src/lib.rs) -/

/-- `Layout { size, align }` of an allocation request. -/
structure Layout where
  size : Nat
  align : Nat
deriving DecidableEq, Repr

/-- The effective block size both `Heap::alloc` and `Heap::dealloc` compute:
`max(layout.size().next_power_of_two(), max(layout.align(), size_of::<usize>()))`. -/
def Layout.blockSize (l : Layout) : Nat :=
  max (next_power_of_two l.size) (max l.align 8)

structure Heap where
  free_list : FL
  user : Nat
  allocated : Nat
  total : Nat
deriving DecidableEq, Repr

/-- `Heap::new()`. -/
def Heap.new : Heap := ⟨List.replicate 32 [], 0, 0, 0⟩

/-- The loop of `Heap::add_to_heap`: while `current + size_of::<usize>() <= end`,
compute `lowbit`, take `size = min(lowbit, prev_power_of_two(end - current))`,
push `current` on the class-`trailing_zeros size` free list and advance.
Returns the new array together with the amount added to `total`.
The counter only bounds the recursion; `fuel = end - start + 1` never runs
out because each iteration advances `current` by `size ≥ 1` (a `size = 0`
iteration hits `trailing_zeros 0 = 64` and dies on the array index first). -/
def addToHeapLoop : Nat → FL → Nat → Nat → Nat → Option (FL × Nat)
  | 0, _, _, _, _ => none
  | fuel + 1, fl, em, cur, e =>
    if cur + 8 ≤ e then
      let size := min (lowbit cur) (prev_power_of_two (e - cur))
      let cls := trailing_zeros size
      match getL fl cls with
      | none => none
      | some lst => addToHeapLoop fuel (setL fl cls (cur :: lst)) (em + size) (cur + size) e
    else some (fl, em)

/-- `Heap::add_to_heap(start, end)`; `none` models the `assert!(start <= end)`
abort and the out-of-bounds panic on a decomposition class `≥ 32`. -/
def Heap.add_to_heap (h : Heap) (s e : Nat) : Option Heap :=
  if s ≤ e then
    match addToHeapLoop (e - s + 1) h.free_list 0 s e with
    | none => none
    | some (fl, em) => some { h with free_list := fl, total := h.total + em }
  else none

/-- Scan `for i in class..32` for the first non-empty free list, ascending;
the counter is the number of classes still to inspect (`32 - i`). -/
def findClassAux (fl : FL) : Nat → Option Nat
  | 0 => none
  | r + 1 =>
    let i := 32 - (r + 1)
    match getL fl i with
    | none => none
    | some s => if s.isEmpty then findClassAux fl r else some i

/-- The split cascade of `Heap::alloc`: `for j in (class+1..i+1).rev()`,
pop a block from class `j` and push its two halves on class `j - 1`
(the upper half first, so the block itself ends up at the head).
The counter is `i - class`.  Returns the mutated array and `false` for the
`return Err` taken when a class is unexpectedly empty (the state mutated so
far is kept, as in the Rust code); `none` is an impossible index panic. -/
def heapSplitLoop : Nat → FL → Nat → Option (FL × Bool)
  | 0, fl, _ => some (fl, true)
  | n + 1, fl, cls =>
    let j := cls + n + 1
    match getL fl j with
    | none => none
    | some s =>
      match s with
      | [] => some (fl, false)
      | block :: rest =>
        let fl1 := setL fl j rest
        let fl2 := setL fl1 (j - 1) ((block + 1 <<< (j - 1)) :: classList fl1 (j - 1))
        let fl3 := setL fl2 (j - 1) (block :: classList fl2 (j - 1))
        heapSplitLoop n fl3 cls

/-- `Heap::alloc(layout)`.  Result `some (h, some p)` is `Ok` with pointer `p`
and post-state `h`; `some (h, none)` is `Err(AllocErr)` with post-state `h`
(the state can differ from the input: a mid-cascade `Err` keeps the partial
splits, and `NonNull::new` of a popped null block fails after the pop);
`none` is the `.expect("current block should have free space now")` panic. -/
def Heap.alloc (h : Heap) (l : Layout) : Option (Heap × Option Nat) :=
  let size := l.blockSize
  let cls := trailing_zeros size
  match findClassAux h.free_list (32 - cls) with
  | none => some (h, none)
  | some i =>
    match heapSplitLoop (i - cls) h.free_list cls with
    | none => none
    | some (fl1, false) => some ({ h with free_list := fl1 }, none)
    | some (fl1, true) =>
      match getL fl1 cls with
      | none => none
      | some s =>
        match s with
        | [] => none
        | b :: rest =>
          if b = 0 then some ({ h with free_list := setL fl1 cls rest }, none)
          else
            some ({ h with free_list := setL fl1 cls rest,
                           user := h.user + l.size,
                           allocated := h.allocated + size }, some b)

/-- The merge loop of `Heap::dealloc`: `while current_class < free_list.len()`,
scan class `current_class` for the buddy `current_ptr ^ (1 << current_class)`
(iterate-with-removal takes the first occurrence), and if found also pop the
list head (the block pushed on entry), then push `min(current_ptr, buddy)`
one class higher — with no bound on that index, so a merge at class 31
pushes to `free_list[32]`: `none` models that out-of-bounds panic.
The counter 33 covers every possible ascent. -/
def heapDeallocLoop : Nat → FL → Nat → Nat → Option FL
  | 0, _, _, _ => none
  | fuel + 1, fl, cur, cls =>
    if cls < 32 then
      let s := classList fl cls
      let buddy := cur ^^^ (1 <<< cls)
      if buddy ∈ s then
        let fl1 := setL fl cls ((s.erase buddy).tail)
        if cls + 1 < 32 then
          heapDeallocLoop fuel (setL fl1 (cls + 1) (min cur buddy :: classList fl1 (cls + 1)))
            (min cur buddy) (cls + 1)
        else none
      else some fl
    else some fl

/-- `Heap::dealloc(ptr, layout)`: push the pointer on its class, coalesce,
then rewind the statistics.  (`user -= layout.size()` and
`allocated -= size` are modelled with truncated subtraction; under the
matched-alloc contract they never underflow.) -/
def Heap.dealloc (h : Heap) (ptr : Nat) (l : Layout) : Option Heap :=
  let size := l.blockSize
  let cls := trailing_zeros size
  match getL h.free_list cls with
  | none => none
  | some s =>
    match heapDeallocLoop 33 (setL h.free_list cls (ptr :: s)) ptr cls with
    | none => none
    | some fl1 =>
      some { h with free_list := fl1, user := h.user - l.size, allocated := h.allocated - size }

/-! ## The frame allocator (src/frame.rs) -/

structure FrameAllocator where
  free_list : FL
  allocated : Nat
  total : Nat
deriving DecidableEq, Repr

/-- `FrameAllocator::new()`. -/
def FrameAllocator.new : FrameAllocator := ⟨List.replicate 32 [], 0, 0⟩

/-- The loop of `FrameAllocator::add_frame`: as for the heap but with the
loop condition `current < end`, `BTreeSet` insertion, and the special case
`lowbit = 32` (the literal value 32) when `current = 0`. -/
def frameAddLoop : Nat → FL → Nat → Nat → Nat → Option (FL × Nat)
  | 0, _, _, _, _ => none
  | fuel + 1, fl, em, cur, e =>
    if cur < e then
      let lb := if cur > 0 then lowbit cur else 32
      let size := min lb (prev_power_of_two (e - cur))
      let cls := trailing_zeros size
      match getL fl cls with
      | none => none
      | some s => frameAddLoop fuel (setL fl cls (btInsert cur s)) (em + size) (cur + size) e
    else some (fl, em)

/-- `FrameAllocator::add_frame(start, end)`. -/
def FrameAllocator.add_frame (fa : FrameAllocator) (s e : Nat) : Option FrameAllocator :=
  if s ≤ e then
    match frameAddLoop (e - s + 1) fa.free_list 0 s e with
    | none => none
    | some (fl, em) => some { fa with free_list := fl, total := fa.total + em }
  else none

/-- The split cascade of `FrameAllocator::alloc`: take the first element of
the class-`j` set (`iter().next()`, the minimum), insert its two halves into
class `j - 1`, and remove it from class `j`. -/
def frameSplitLoop : Nat → FL → Nat → Option (FL × Bool)
  | 0, fl, _ => some (fl, true)
  | n + 1, fl, cls =>
    let j := cls + n + 1
    match getL fl j with
    | none => none
    | some s =>
      match s.head? with
      | none => some (fl, false)
      | some block =>
        let fl1 := setL fl (j - 1) (btInsert (block + 1 <<< (j - 1)) (classList fl (j - 1)))
        let fl2 := setL fl1 (j - 1) (btInsert block (classList fl1 (j - 1)))
        let fl3 := setL fl2 j (s.erase block)
        frameSplitLoop n fl3 cls

/-- `FrameAllocator::alloc(count)`: `some (fa, some r)` returns frame `r`,
`some (fa, none)` is `None` (with the post-state kept, as in the Rust code);
`none` is an impossible index panic. -/
def FrameAllocator.alloc (fa : FrameAllocator) (count : Nat) : Option (FrameAllocator × Option Nat) :=
  let size := next_power_of_two count
  let cls := trailing_zeros size
  match findClassAux fa.free_list (32 - cls) with
  | none => some (fa, none)
  | some i =>
    match frameSplitLoop (i - cls) fa.free_list cls with
    | none => none
    | some (fl1, false) => some ({ fa with free_list := fl1 }, none)
    | some (fl1, true) =>
      match getL fl1 cls with
      | none => none
      | some s =>
        match s.head? with
        | none => some ({ fa with free_list := fl1 }, none)
        | some r =>
          some ({ fa with free_list := setL fl1 cls (s.erase r),
                          allocated := fa.allocated + size }, some r)

/-- The merge loop of `FrameAllocator::dealloc`: while `current_class < 32`,
remove the buddy if present and ascend, else insert the current block and
stop.  (A merge at class 31 leaves the loop with `current_class = 32` and
the merged block is never re-inserted.)  The counter 33 covers every ascent. -/
def frameDeallocLoop : Nat → FL → Nat → Nat → FL
  | 0, fl, _, _ => fl
  | fuel + 1, fl, cur, cls =>
    if cls < 32 then
      let s := classList fl cls
      let buddy := cur ^^^ (1 <<< cls)
      if buddy ∈ s then
        frameDeallocLoop fuel (setL fl cls (s.erase buddy)) (min cur buddy) (cls + 1)
      else setL fl cls (btInsert cur s)
    else fl

/-- `FrameAllocator::dealloc(frame, count)`. -/
def FrameAllocator.dealloc (fa : FrameAllocator) (frame count : Nat) : FrameAllocator :=
  let size := next_power_of_two count
  let cls := trailing_zeros size
  { fa with free_list := frameDeallocLoop 33 fa.free_list frame cls,
            allocated := fa.allocated - size }

/-! ## Concrete scenarios and counterexamples -/

/-- C1: on a fresh frame allocator, `add_frame(0, 3); alloc(1); alloc(2); alloc(1)`
yields `Some 2`, `Some 0`, `None`: `[0,3)` decomposes into a class-1 block at
frame 0 and a class-0 block at frame 2, the one-frame request is served from
class 0 returning 2, the two-frame request from class 1 returning 0, and the
final one-frame request fails (leaving the state unchanged). -/
theorem frame_small_pool_scenario :
    FrameAllocator.new.add_frame 0 3 =
      some ⟨setL (setL (List.replicate 32 []) 1 [0]) 0 [2], 0, 3⟩ ∧
    FrameAllocator.alloc ⟨setL (setL (List.replicate 32 []) 1 [0]) 0 [2], 0, 3⟩ 1 =
      some (⟨setL (List.replicate 32 []) 1 [0], 1, 3⟩, some 2) ∧
    FrameAllocator.alloc ⟨setL (List.replicate 32 []) 1 [0], 1, 3⟩ 2 =
      some (⟨List.replicate 32 [], 3, 3⟩, some 0) ∧
    FrameAllocator.alloc ⟨List.replicate 32 [], 3, 3⟩ 1 =
      some (⟨List.replicate 32 [], 3, 3⟩, none) := by
  refine ⟨by decide, by decide, by decide, by decide⟩

/-- C2 (code bug): `Heap::dealloc`'s coalescing loop runs while
`current_class < free_list.len() = 32`, not `< 31` as the claim states, so a
merge at class 31 pushes to `free_list[32]` — an out-of-bounds panic — on a
pointer/layout pair returned by a matching alloc.  Two adjacent class-31
regions are added, a class-31 block is allocated and then deallocated with
the identical layout; the model returns `none` (the index panic). -/
theorem heap_dealloc_class31_merge_panics :
    Heap.new.add_to_heap (2 ^ 32) (2 ^ 32 + 2 ^ 31) =
      some ⟨setL (List.replicate 32 []) 31 [2 ^ 32], 0, 0, 2 ^ 31⟩ ∧
    Heap.add_to_heap ⟨setL (List.replicate 32 []) 31 [2 ^ 32], 0, 0, 2 ^ 31⟩
        (2 ^ 32 + 2 ^ 31) (2 ^ 33) =
      some ⟨setL (List.replicate 32 []) 31 [2 ^ 32 + 2 ^ 31, 2 ^ 32], 0, 0, 2 ^ 32⟩ ∧
    Heap.alloc ⟨setL (List.replicate 32 []) 31 [2 ^ 32 + 2 ^ 31, 2 ^ 32], 0, 0, 2 ^ 32⟩
        ⟨2 ^ 31, 8⟩ =
      some (⟨setL (List.replicate 32 []) 31 [2 ^ 32], 2 ^ 31, 2 ^ 31, 2 ^ 32⟩,
            some (2 ^ 32 + 2 ^ 31)) ∧
    Heap.dealloc ⟨setL (List.replicate 32 []) 31 [2 ^ 32], 2 ^ 31, 2 ^ 31, 2 ^ 32⟩
        (2 ^ 32 + 2 ^ 31) ⟨2 ^ 31, 8⟩ = none := by
  refine ⟨by decide, by decide, by decide, by decide⟩

/-- C3 (counterexample): `Heap::add_to_heap(0, 8)` does not run to completion
even though `0 ≤ 8`: at `current = 0` the lowbit expression is 0, so
`size = 0` and `trailing_zeros 0 = 64` indexes `free_list[64]`, out of
bounds (the model returns `none`). -/
theorem heap_add_to_heap_zero_start_panics :
    Heap.new.add_to_heap 0 8 = none ∧ (0 : Nat) ≤ 8 := by
  refine ⟨by decide, by decide⟩

/-- C4 (counterexample): the cap substituted at `current = 0` in
`FrameAllocator::add_frame` is the literal value 32, not a bound large
enough that only `prev_power_of_two(end)` applies: with `end = 64`,
`prev_power_of_two 64 = 64` (class 6), but the first block emitted at
frame 0 has size `min 32 64 = 32` (class 5). -/
theorem add_frame_zero_cap_is_32_cx :
    FrameAllocator.new.add_frame 0 64 =
      some ⟨setL (List.replicate 32 []) 5 [0, 32], 0, 64⟩ ∧
    trailing_zeros (prev_power_of_two 64) = 6 ∧
    0 ∉ classList (setL (List.replicate 32 []) 5 [0, 32]) 6 ∧
    0 ∈ classList (setL (List.replicate 32 []) 5 [0, 32]) 5 := by
  refine ⟨by decide, by decide, by decide, by decide⟩

/-- C4 (amended): for every `end` with `1 ≤ end < 64` — so that
`prev_power_of_two end ≤ 32` and the cap is not the binding constraint —
the first block emitted by `add_frame(0, end)` has size
`prev_power_of_two end`: frame 0 is stored in exactly the class
`log2 (prev_power_of_two end)`. -/
theorem add_frame_zero_start_first_block :
    ∀ e, e < 64 → 1 ≤ e →
      (FrameAllocator.new.add_frame 0 e).isSome = true ∧
      ∀ k, k < 32 →
        (0 ∈ classList ((FrameAllocator.new.add_frame 0 e).getD FrameAllocator.new).free_list k ↔
          k = trailing_zeros (prev_power_of_two e)) := by
  decide

/-- Witness for `add_frame_zero_start_first_block` at `end = 3`. -/
theorem add_frame_zero_start_first_block_w :
    (FrameAllocator.new.add_frame 0 3).isSome = true ∧
    ∀ k, k < 32 →
      (0 ∈ classList ((FrameAllocator.new.add_frame 0 3).getD FrameAllocator.new).free_list k ↔
        k = trailing_zeros (prev_power_of_two 3)) :=
  add_frame_zero_start_first_block 3 (by decide) (by decide)

/-- C5 (code bug): `Heap::add_to_heap` on a region starting at the odd
address 1 emits a block of size 1 (class 0), smaller than the machine word:
`add_to_heap(1, 9)` pushes address 1 onto the class-0 free list, although a
free block must hold a word-sized intrusive link. -/
theorem heap_add_odd_start_emits_subword_block :
    Heap.new.add_to_heap 1 9 = some ⟨setL (List.replicate 32 []) 0 [1], 0, 0, 1⟩ ∧
    classList (setL (List.replicate 32 []) 0 [1]) 0 = [1] := by
  refine ⟨by decide, by decide⟩

/-- C6 (counterexample): from the (not reachable through the public API)
state holding the null address 0 as a free class-3 block, `Heap::alloc`
returns `Err` — `NonNull::new(0)` fails — but only after popping the block,
so the free lists are not as they were before the call. -/
theorem heap_alloc_err_can_mutate_state :
    Heap.alloc ⟨setL (List.replicate 32 []) 3 [0], 0, 0, 8⟩ ⟨1, 1⟩ =
      some (⟨List.replicate 32 [], 0, 0, 8⟩, none) ∧
    (⟨List.replicate 32 [], 0, 0, 8⟩ : Heap) ≠ ⟨setL (List.replicate 32 []) 3 [0], 0, 0, 8⟩ := by
  refine ⟨by decide, by decide⟩

/-- C8 (counterexample): from the reachable state with free class-3 blocks
`{8, 16, 24}` (three adjacent `add_to_heap` regions), `alloc(8, 8)` returns
block 24 and the immediate matching `dealloc` coalesces 24 with the
pre-existing free buddy 16 into a class-4 block — so the round trip does not
restore the prior per-class block sets. -/
theorem heap_alloc_dealloc_roundtrip_cx :
    ((Heap.new.add_to_heap 8 16).bind fun h => h.add_to_heap 16 24).bind
        (fun h => h.add_to_heap 24 32) =
      some ⟨setL (List.replicate 32 []) 3 [24, 16, 8], 0, 0, 24⟩ ∧
    Heap.alloc ⟨setL (List.replicate 32 []) 3 [24, 16, 8], 0, 0, 24⟩ ⟨8, 8⟩ =
      some (⟨setL (List.replicate 32 []) 3 [16, 8], 8, 8, 24⟩, some 24) ∧
    Heap.dealloc ⟨setL (List.replicate 32 []) 3 [16, 8], 8, 8, 24⟩ 24 ⟨8, 8⟩ =
      some ⟨setL (setL (List.replicate 32 []) 3 [8]) 4 [16], 0, 0, 24⟩ ∧
    classList (setL (setL (List.replicate 32 []) 3 [8]) 4 [16]) 4 ≠
      classList (setL (List.replicate 32 []) 3 [24, 16, 8]) 4 := by
  refine ⟨by decide, by decide, by decide, by decide⟩

/-! ## Arithmetic toolkit -/

theorem land_two_mul (a b : Nat) : 2 * a &&& 2 * b = 2 * (a &&& b) := by
  have := Nat.land_bit false a false b
  simpa [Nat.bit] using this

theorem land_two_mul_add_one (a b : Nat) : 2 * a + 1 &&& 2 * b + 1 = 2 * (a &&& b) + 1 := by
  have := Nat.land_bit true a true b
  simpa [Nat.bit] using this

theorem land_even_odd (a b : Nat) : 2 * a &&& 2 * b + 1 = 2 * (a &&& b) := by
  have := Nat.land_bit false a true b
  simpa [Nat.bit] using this

theorem land_odd_even (a b : Nat) : 2 * a + 1 &&& 2 * b = 2 * (a &&& b) := by
  have := Nat.land_bit true a false b
  simpa [Nat.bit] using this

theorem xor_two_mul (a b : Nat) : 2 * a ^^^ 2 * b = 2 * (a ^^^ b) := by
  have := Nat.xor_bit false a false b
  simpa [Nat.bit] using this

theorem xor_even_odd (a b : Nat) : 2 * a ^^^ 2 * b + 1 = 2 * (a ^^^ b) + 1 := by
  have := Nat.xor_bit false a true b
  simpa [Nat.bit] using this

theorem xor_odd_even (a b : Nat) : 2 * a + 1 ^^^ 2 * b = 2 * (a ^^^ b) + 1 := by
  have := Nat.xor_bit true a false b
  simpa [Nat.bit] using this

theorem tzAux_succ (f n : Nat) : tzAux (f + 1) n = if n % 2 = 1 then 0 else tzAux f (n / 2) + 1 := rfl

theorem tzAux_step : ∀ f n, 0 < n → n < 2 ^ f → tzAux f n = tzAux (f + 1) n := by
  intro f
  induction f with
  | zero => intro n h1 h2; omega
  | succ f ih =>
    intro n h1 h2
    rw [tzAux_succ, tzAux_succ]
    rcases Nat.mod_two_eq_zero_or_one n with h | h
    · simp only [h]
      norm_num
      have hn2 : 0 < n / 2 := by omega
      have hn2' : n / 2 < 2 ^ f := by
        rw [pow_succ] at h2; omega
      exact ih (n / 2) hn2 hn2'
    · simp [h]

theorem tzAux_mono_fuel : ∀ g f n, 0 < n → n < 2 ^ f → f ≤ g → tzAux f n = tzAux g n := by
  intro g
  induction g with
  | zero => intro f n h1 h2 h3; interval_cases f; omega
  | succ g ih =>
    intro f n h1 h2 h3
    rcases Nat.eq_or_lt_of_le h3 with rfl | h4
    · rfl
    · have hfg : f ≤ g := by omega
      rw [ih f n h1 h2 hfg,
        tzAux_step g n h1 (lt_of_lt_of_le h2 (Nat.pow_le_pow_right (by norm_num) hfg))]

theorem trailing_zeros_odd (n : Nat) (h : n % 2 = 1) : trailing_zeros n = 0 := by
  have hn : n ≠ 0 := by omega
  simp only [trailing_zeros, hn, if_false]
  rw [show (64 : Nat) = 63 + 1 from rfl, tzAux_succ, if_pos h]

theorem trailing_zeros_two_mul (n : Nat) (h1 : 0 < n) (h2 : n < 2 ^ 63) :
    trailing_zeros (2 * n) = trailing_zeros n + 1 := by
  have hn : (2 * n) ≠ 0 := by omega
  have hne : n ≠ 0 := by omega
  simp only [trailing_zeros, hn, hne, if_false]
  rw [show (64 : Nat) = 63 + 1 from rfl, tzAux_succ]
  have h0 : ¬((2 * n) % 2 = 1) := by omega
  rw [if_neg h0, Nat.mul_div_cancel_left n (by norm_num)]
  rw [← tzAux_mono_fuel 64 63 n h1 h2 (by norm_num)]

theorem tzAux_two_pow : ∀ f k, k < f → tzAux f (2 ^ k) = k := by
  intro f
  induction f with
  | zero => omega
  | succ f ih =>
    intro k hk
    rw [tzAux_succ]
    cases k with
    | zero => simp
    | succ k =>
      have h0 : ¬(2 ^ (k + 1) % 2 = 1) := by
        have : 2 ^ (k + 1) % 2 = 0 := by simp [pow_succ, Nat.mul_mod_left]
        omega
      rw [if_neg h0]
      have hdiv : 2 ^ (k + 1) / 2 = 2 ^ k := by
        rw [pow_succ]; omega
      rw [hdiv, ih k (by omega)]

theorem trailing_zeros_two_pow (k : Nat) (hk : k < 64) : trailing_zeros (2 ^ k) = k := by
  have h : (2 : Nat) ^ k ≠ 0 := by positivity
  simp only [trailing_zeros, h, if_false]
  exact tzAux_two_pow 64 k hk

theorem tzAux_pow_dvd : ∀ f n, 0 < n → 2 ^ tzAux f n ∣ n := by
  intro f
  induction f with
  | zero => intro n h; simp [tzAux]
  | succ f ih =>
    intro n h
    rw [tzAux_succ]
    rcases Nat.mod_two_eq_zero_or_one n with h2 | h2
    · have h2' : ¬(n % 2 = 1) := by omega
      rw [if_neg h2']
      have hp : 0 < n / 2 := by omega
      obtain ⟨c, hc⟩ := ih (n / 2) hp
      refine ⟨c, ?_⟩
      rw [pow_succ]
      calc n = 2 * (n / 2) := by omega
        _ = 2 * (2 ^ tzAux f (n / 2) * c) := congrArg (fun t => 2 * t) hc
        _ = 2 ^ tzAux f (n / 2) * 2 * c := by ring
    · simp [h2]

theorem two_pow_trailing_zeros_dvd (n : Nat) (h : 0 < n) : 2 ^ trailing_zeros n ∣ n := by
  have hn : n ≠ 0 := by omega
  simp only [trailing_zeros, hn, if_false]
  exact tzAux_pow_dvd 64 n h

theorem land_compl_eq_zero : ∀ k x, x < 2 ^ k → x &&& (2 ^ k - 1 - x) = 0 := by
  intro k
  induction k with
  | zero => intro x hx; interval_cases x; decide
  | succ k ih =>
    intro x hx
    rw [pow_succ] at hx
    rcases Nat.mod_two_eq_zero_or_one x with h | h
    · obtain ⟨y, rfl⟩ : ∃ y, x = 2 * y := ⟨x / 2, by omega⟩
      have hy : y < 2 ^ k := by omega
      have hc : 2 ^ (k + 1) - 1 - 2 * y = 2 * (2 ^ k - 1 - y) + 1 := by
        rw [pow_succ]; omega
      rw [hc, land_even_odd, ih y hy]
    · obtain ⟨y, rfl⟩ : ∃ y, x = 2 * y + 1 := ⟨x / 2, by omega⟩
      have hy : y < 2 ^ k := by omega
      have hc : 2 ^ (k + 1) - 1 - (2 * y + 1) = 2 * (2 ^ k - 1 - y) := by
        rw [pow_succ]; omega
      rw [hc, land_odd_even, ih y hy]

theorem land_two_pow_sub (c : Nat) : ∀ w, 0 < c → c < 2 ^ w → w ≤ 64 →
    c &&& (2 ^ w - c) = 2 ^ trailing_zeros c := by
  induction c using Nat.strong_induction_on with
  | _ c ih =>
    intro w h1 h2 h3
    rcases Nat.mod_two_eq_zero_or_one c with h | h
    · obtain ⟨b, rfl⟩ : ∃ b, c = 2 * b := ⟨c / 2, by omega⟩
      cases w with
      | zero => simp at h2; omega
      | succ w =>
        rw [pow_succ] at h2
        have hb1 : 0 < b := by omega
        have hb2 : b < 2 ^ w := by omega
        have hc : 2 ^ (w + 1) - 2 * b = 2 * (2 ^ w - b) := by rw [pow_succ]; omega
        rw [hc, land_two_mul, ih b (by omega) w hb1 hb2 (by omega)]
        rw [trailing_zeros_two_mul b hb1
          (lt_of_lt_of_le hb2 (Nat.pow_le_pow_right (by norm_num) (by omega)))]
        rw [pow_succ]; ring
    · obtain ⟨b, rfl⟩ : ∃ b, c = 2 * b + 1 := ⟨c / 2, by omega⟩
      cases w with
      | zero => simp at h2
      | succ w =>
        rw [pow_succ] at h2
        have hb : b < 2 ^ w := by omega
        have hc : 2 ^ (w + 1) - (2 * b + 1) = 2 * (2 ^ w - 1 - b) + 1 := by
          rw [pow_succ]; omega
        rw [hc, land_two_mul_add_one, land_compl_eq_zero w b hb,
          trailing_zeros_odd (2 * b + 1) (by omega)]
        norm_num

theorem lowbit_eq (c : Nat) (h1 : 0 < c) (h2 : c < 2 ^ 64) :
    lowbit c = 2 ^ trailing_zeros c := by
  unfold lowbit
  rw [Nat.mod_eq_of_lt (Nat.sub_lt (by positivity) h1)]
  exact land_two_pow_sub c 64 h1 h2 le_rfl

theorem bitLenAux_succ (f n : Nat) :
    bitLenAux (f + 1) n = if n = 0 then 0 else bitLenAux f (n / 2) + 1 := rfl

theorem bitLenAux_zero_val : ∀ f, bitLenAux f 0 = 0 := by
  intro f; cases f <;> simp [bitLenAux]

theorem bitLenAux_lt : ∀ f n, n < 2 ^ f → n < 2 ^ bitLenAux f n := by
  intro f
  induction f with
  | zero => intro n h; simpa [bitLenAux] using h
  | succ f ih =>
    intro n h
    rw [bitLenAux_succ]
    rcases eq_or_ne n 0 with rfl | hn
    · simp
    · rw [if_neg hn]
      have h2 : n / 2 < 2 ^ f := by rw [pow_succ] at h; omega
      have := ih (n / 2) h2
      rw [pow_succ]; omega

theorem bitLenAux_le : ∀ f n, bitLenAux f n ≤ f := by
  intro f
  induction f with
  | zero => intro n; simp [bitLenAux]
  | succ f ih =>
    intro n
    rw [bitLenAux_succ]
    split
    · omega
    · have := ih (n / 2); omega

theorem bitLenAux_pos : ∀ f n, 0 < n → 0 < bitLenAux (f + 1) n := by
  intro f n h
  rw [bitLenAux_succ, if_neg (by omega)]
  omega

theorem two_pow_bitLenAux_pred_le : ∀ f n, 0 < n → 2 ^ (bitLenAux f n - 1) ≤ n := by
  intro f
  induction f with
  | zero => intro n h; simp [bitLenAux]; omega
  | succ f ih =>
    intro n h
    rw [bitLenAux_succ, if_neg (by omega)]
    rcases Nat.eq_zero_or_pos (n / 2) with h2 | h2
    · rw [h2, bitLenAux_zero_val]; simpa using h
    · have := ih (n / 2) h2
      rcases Nat.eq_zero_or_pos (bitLenAux f (n / 2)) with h3 | h3
      · rw [h3]; simpa using h
      · have hb : bitLenAux f (n / 2) + 1 - 1 = (bitLenAux f (n / 2) - 1) + 1 := by omega
        rw [hb, pow_succ]
        omega

theorem bitLenAux_lower : ∀ f n k, 2 ^ k ≤ n → k < f → k < bitLenAux f n := by
  intro f
  induction f with
  | zero => omega
  | succ f ih =>
    intro n k h1 h2
    have hn : n ≠ 0 := by have : 0 < 2 ^ k := by positivity
                          omega
    rw [bitLenAux_succ, if_neg hn]
    cases k with
    | zero => omega
    | succ k =>
      have hk : 2 ^ k ≤ n / 2 := by rw [pow_succ] at h1; omega
      have := ih (n / 2) k hk (by omega)
      omega

theorem bitLen_pos (n : Nat) (h : 0 < n) : 0 < bitLen n := bitLenAux_pos 63 n h

theorem prev_power_of_two_eq (n : Nat) (h1 : 0 < n) :
    prev_power_of_two n = 2 ^ (bitLen n - 1) := by
  unfold prev_power_of_two leading_zeros
  rw [Nat.shiftLeft_eq, one_mul]
  congr 1
  have hle : bitLen n ≤ 64 := bitLenAux_le 64 n
  have hpos : 0 < bitLen n := bitLen_pos n h1
  omega

theorem prev_power_of_two_le (n : Nat) (h1 : 0 < n) : prev_power_of_two n ≤ n := by
  rw [prev_power_of_two_eq n h1]
  exact two_pow_bitLenAux_pred_le 64 n h1

theorem prev_power_of_two_pos (n : Nat) : 0 < prev_power_of_two n := by
  unfold prev_power_of_two
  rw [Nat.shiftLeft_eq, one_mul]
  positivity

theorem next_power_of_two_pow (n : Nat) : ∃ k, next_power_of_two n = 2 ^ k := by
  unfold next_power_of_two
  split
  · exact ⟨0, rfl⟩
  · exact ⟨bitLen (n - 1), rfl⟩

theorem le_next_power_of_two (n : Nat) (h : n ≤ 2 ^ 64) : n ≤ next_power_of_two n := by
  unfold next_power_of_two
  split
  · omega
  · have h2 : n - 1 < 2 ^ 64 := by omega
    have := bitLenAux_lt 64 (n - 1) h2
    show n ≤ 2 ^ bitLenAux 64 (n - 1)
    omega

theorem min_two_pow (a b : Nat) : min (2 ^ a) (2 ^ b) = 2 ^ min a b := by
  rcases le_total a b with h | h
  · rw [min_eq_left (Nat.pow_le_pow_right (by norm_num) h), min_eq_left h]
  · rw [min_eq_right (Nat.pow_le_pow_right (by norm_num) h), min_eq_right h]

/-- A power of two (the shape of every effective block size). -/
def IsPow2 (n : Nat) : Prop := ∃ k, n = 2 ^ k

theorem max_pow2 {a b : Nat} (ha : IsPow2 a) (hb : IsPow2 b) : IsPow2 (max a b) := by
  obtain ⟨i, rfl⟩ := ha
  obtain ⟨j, rfl⟩ := hb
  rcases le_total i j with h | h
  · rw [max_eq_right (Nat.pow_le_pow_right (by norm_num) h)]; exact ⟨j, rfl⟩
  · rw [max_eq_left (Nat.pow_le_pow_right (by norm_num) h)]; exact ⟨i, rfl⟩

theorem blockSize_pow2 (l : Layout) (h : IsPow2 l.align) : IsPow2 l.blockSize := by
  unfold Layout.blockSize
  exact max_pow2 ⟨_, (next_power_of_two_pow l.size).choose_spec⟩ (max_pow2 h ⟨3, rfl⟩)

theorem blockSize_pos (l : Layout) : 8 ≤ l.blockSize :=
  le_trans (le_max_right _ 8) (le_max_right _ _)

theorem bitLenAux_le_of_lt : ∀ f n k, n < 2 ^ k → bitLenAux f n ≤ k := by
  intro f
  induction f with
  | zero => intro n k h; simp [bitLenAux]
  | succ f ih =>
    intro n k h
    rw [bitLenAux_succ]
    rcases eq_or_ne n 0 with rfl | hn
    · simp
    · rw [if_neg hn]
      cases k with
      | zero => simp at h; omega
      | succ k =>
        have h2 : n / 2 < 2 ^ k := by rw [pow_succ] at h; omega
        have := ih (n / 2) k h2
        omega

theorem heap_size_analysis (cur e : Nat) (h1 : 1 ≤ cur) (h8 : cur < e)
    (h2 : e ≤ 2 ^ 32) :
    ∃ m, min (lowbit cur) (prev_power_of_two (e - cur)) = 2 ^ m ∧ m < 32 ∧
      trailing_zeros (min (lowbit cur) (prev_power_of_two (e - cur))) = m ∧
      2 ^ m ≤ e - cur := by
  have hc64 : cur < 2 ^ 64 := by
    have : (2 : Nat) ^ 32 < 2 ^ 64 := by norm_num
    omega
  have hec : 0 < e - cur := by omega
  rw [lowbit_eq cur h1 hc64, prev_power_of_two_eq (e - cur) hec, min_two_pow]
  refine ⟨min (trailing_zeros cur) (bitLen (e - cur) - 1), rfl, ?_, ?_, ?_⟩
  · have hle : 2 ^ min (trailing_zeros cur) (bitLen (e - cur) - 1) ≤ 2 ^ (bitLen (e - cur) - 1) :=
      Nat.pow_le_pow_right (by norm_num) (min_le_right _ _)
    have hp : 2 ^ (bitLen (e - cur) - 1) ≤ e - cur := two_pow_bitLenAux_pred_le 64 (e - cur) hec
    have hlt : 2 ^ min (trailing_zeros cur) (bitLen (e - cur) - 1) < 2 ^ 32 := by
      have : e - cur < 2 ^ 32 := by omega
      omega
    exact (Nat.pow_lt_pow_iff_right (by norm_num)).mp hlt
  · apply trailing_zeros_two_pow
    have hle : 2 ^ min (trailing_zeros cur) (bitLen (e - cur) - 1) ≤ 2 ^ (bitLen (e - cur) - 1) :=
      Nat.pow_le_pow_right (by norm_num) (min_le_right _ _)
    have hp : 2 ^ (bitLen (e - cur) - 1) ≤ e - cur := two_pow_bitLenAux_pred_le 64 (e - cur) hec
    have hlt : 2 ^ min (trailing_zeros cur) (bitLen (e - cur) - 1) < 2 ^ 64 := by
      have h32 : e - cur < 2 ^ 32 := by omega
      have : (2 : Nat) ^ 32 ≤ 2 ^ 64 := by norm_num
      omega
    exact (Nat.pow_lt_pow_iff_right (by norm_num)).mp hlt
  · calc 2 ^ min (trailing_zeros cur) (bitLen (e - cur) - 1)
        ≤ 2 ^ (bitLen (e - cur) - 1) :=
          Nat.pow_le_pow_right (by norm_num) (min_le_right _ _)
      _ ≤ e - cur := two_pow_bitLenAux_pred_le 64 (e - cur) hec

theorem addToHeapLoop_total : ∀ fuel cur fl em e, fl.length = 32 → 1 ≤ cur → cur ≤ e →
    e ≤ 2 ^ 32 → e - cur < fuel → (addToHeapLoop fuel fl em cur e).isSome = true := by
  intro fuel
  induction fuel with
  | zero => intro cur fl em e _ _ _ _ h5; omega
  | succ fuel ih =>
    intro cur fl em e hlen h1 hle h2 h5
    rcases Nat.lt_or_ge e (cur + 8) with h8 | h8
    · simp only [addToHeapLoop]
      rw [if_neg (by omega)]
      rfl
    · obtain ⟨m, hm, hm32, htz, hsz⟩ := heap_size_analysis cur e h1 (by omega) h2
      have hp : 0 < 2 ^ m := by positivity
      simp only [addToHeapLoop]
      rw [if_pos h8, htz, hm]
      have hm' : m < fl.length := by omega
      obtain ⟨lst, hget⟩ : ∃ lst, getL fl m = some lst :=
        ⟨fl[m], by simp [getL, List.getElem?_eq_getElem hm']⟩
      rw [hget]
      show (addToHeapLoop fuel (setL fl m (cur :: lst)) (em + 2 ^ m) (cur + 2 ^ m) e).isSome = true
      exact ih (cur + 2 ^ m) (setL fl m (cur :: lst)) (em + 2 ^ m) e
        (by simp [setL, hlen]) (by omega) (by omega) h2 (by omega)

theorem frame_size_analysis_zero (e : Nat) (h0 : 0 < e) (h2 : e ≤ 2 ^ 32) :
    ∃ m, min 32 (prev_power_of_two e) = 2 ^ m ∧ m < 32 ∧
      trailing_zeros (min 32 (prev_power_of_two e)) = m ∧ 2 ^ m ≤ e := by
  rw [prev_power_of_two_eq e h0, show (32 : Nat) = 2 ^ 5 from rfl, min_two_pow]
  refine ⟨min 5 (bitLen e - 1), rfl, by omega, ?_, ?_⟩
  · exact trailing_zeros_two_pow _ (by omega)
  · calc 2 ^ min 5 (bitLen e - 1) ≤ 2 ^ (bitLen e - 1) :=
        Nat.pow_le_pow_right (by norm_num) (min_le_right _ _)
      _ ≤ e := two_pow_bitLenAux_pred_le 64 e h0

theorem frameAddLoop_total : ∀ fuel cur fl em e, fl.length = 32 → cur ≤ e →
    e ≤ 2 ^ 32 → e - cur < fuel → (frameAddLoop fuel fl em cur e).isSome = true := by
  intro fuel
  induction fuel with
  | zero => intro cur fl em e _ _ _ h5; omega
  | succ fuel ih =>
    intro cur fl em e hlen hle h2 h5
    rcases Nat.lt_or_ge cur e with h8 | h8
    swap
    · simp only [frameAddLoop]
      rw [if_neg (by omega)]
      rfl
    · rcases Nat.eq_zero_or_pos cur with rfl | hc
      · obtain ⟨m, hm, hm32, htz, hsz⟩ := frame_size_analysis_zero e h8 h2
        have hp : 0 < 2 ^ m := by positivity
        simp only [frameAddLoop]
        rw [if_pos h8, if_neg (by omega), Nat.sub_zero, htz, hm]
        have hm' : m < fl.length := by omega
        obtain ⟨lst, hget⟩ : ∃ lst, getL fl m = some lst :=
          ⟨fl[m], by simp [getL, List.getElem?_eq_getElem hm']⟩
        rw [hget]
        show (frameAddLoop fuel (setL fl m (btInsert 0 lst)) (em + 2 ^ m) (0 + 2 ^ m) e).isSome = true
        exact ih (0 + 2 ^ m) (setL fl m (btInsert 0 lst)) (em + 2 ^ m) e
          (by simp [setL, hlen]) (by omega) h2 (by omega)
      · obtain ⟨m, hm, hm32, htz, hsz⟩ := heap_size_analysis cur e hc h8 h2
        have hp : 0 < 2 ^ m := by positivity
        simp only [frameAddLoop]
        rw [if_pos h8, if_pos (by omega), htz, hm]
        have hm' : m < fl.length := by omega
        obtain ⟨lst, hget⟩ : ∃ lst, getL fl m = some lst :=
          ⟨fl[m], by simp [getL, List.getElem?_eq_getElem hm']⟩
        rw [hget]
        show (frameAddLoop fuel (setL fl m (btInsert cur lst)) (em + 2 ^ m) (cur + 2 ^ m) e).isSome = true
        exact ih (cur + 2 ^ m) (setL fl m (btInsert cur lst)) (em + 2 ^ m) e
          (by simp [setL, hlen]) (by omega) h2 (by omega)

/-- C3 (amended): `add_to_heap(start, end)` and `add_frame(start, end)` run to
completion — every decomposition class stays in `[0, 32)` — for every
`start ≤ end` with `end ≤ 2 ^ 32` and (for the heap) `start ≥ 1`.
(`add_to_heap(0, ·)` panics — see the counterexample — and a region around
an address `≥ 2 ^ 32` can emit a block of size `2 ^ 32`, class 32.) -/
theorem add_region_ops_complete :
    (∀ (h : Heap) s e, h.free_list.length = 32 → 1 ≤ s → s ≤ e → e ≤ 2 ^ 32 →
      (h.add_to_heap s e).isSome = true) ∧
    (∀ (fa : FrameAllocator) s e, fa.free_list.length = 32 → s ≤ e → e ≤ 2 ^ 32 →
      (fa.add_frame s e).isSome = true) := by
  constructor
  · intro h s e hlen h1 hle h2
    unfold Heap.add_to_heap
    rw [if_pos hle]
    have := addToHeapLoop_total (e - s + 1) s h.free_list 0 e hlen h1 hle h2 (by omega)
    match hx : addToHeapLoop (e - s + 1) h.free_list 0 s e with
    | none => rw [hx] at this; simp at this
    | some (fl, em) => simp
  · intro fa s e hlen hle h2
    unfold FrameAllocator.add_frame
    rw [if_pos hle]
    have := frameAddLoop_total (e - s + 1) s fa.free_list 0 e hlen hle h2 (by omega)
    match hx : frameAddLoop (e - s + 1) fa.free_list 0 s e with
    | none => rw [hx] at this; simp at this
    | some (fl, em) => simp

/-- Witness for `add_region_ops_complete`: heap region `[8, 16)` and frame
region `[0, 3)`. -/
theorem add_region_ops_complete_w :
    (Heap.new.add_to_heap 8 16).isSome = true ∧
    (FrameAllocator.new.add_frame 0 3).isSome = true :=
  ⟨add_region_ops_complete.1 Heap.new 8 16 (by decide) (by decide) (by decide) (by norm_num),
   add_region_ops_complete.2 FrameAllocator.new 0 3 (by decide) (by decide) (by norm_num)⟩

/-! ## Free-list array lemmas -/

theorem length_setL (fl : FL) (i : Nat) (l : List Nat) : (setL fl i l).length = fl.length :=
  List.length_set fl i l

theorem getL_lt {fl : FL} {i : Nat} {s : List Nat} (h : getL fl i = some s) : i < fl.length := by
  simp only [getL] at h
  by_contra hc
  rw [List.getElem?_eq_none (by omega)] at h
  exact Option.noConfusion h

theorem getL_eq_some {fl : FL} {i : Nat} (h : i < fl.length) :
    getL fl i = some (classList fl i) := by
  simp [getL, classList, List.getElem?_eq_getElem h]

theorem getL_setL_self {fl : FL} {i : Nat} (l : List Nat) (h : i < fl.length) :
    getL (setL fl i l) i = some l := by
  simp [getL, setL, List.getElem?_set_self h]

theorem getL_setL_ne {fl : FL} {i j : Nat} (l : List Nat) (h : i ≠ j) :
    getL (setL fl i l) j = getL fl j := by
  simp [getL, setL, List.getElem?_set_ne h]

theorem classList_setL_self {fl : FL} {i : Nat} (l : List Nat) (h : i < fl.length) :
    classList (setL fl i l) i = l := by
  simp [classList, getL_setL_self l h]

theorem classList_setL_ne {fl : FL} {i j : Nat} (l : List Nat) (h : i ≠ j) :
    classList (setL fl i l) j = classList fl j := by
  simp [classList, getL_setL_ne l h]

theorem classList_eq_of_getL {fl : FL} {i : Nat} {s : List Nat} (h : getL fl i = some s) :
    classList fl i = s := by
  simp [classList, h]

/-- The scan `for i in class..32` characterized: a successful result is a
class at least `32 - r`, below 32, whose list is non-empty. -/
theorem findClassAux_some : ∀ r (fl : FL) i, findClassAux fl r = some i →
    32 - r ≤ i ∧ i < 32 ∧ classList fl i ≠ [] ∧ i < fl.length := by
  intro r
  induction r with
  | zero => intro fl i h; simp [findClassAux] at h
  | succ r ih =>
    intro fl i h
    simp only [findClassAux] at h
    rcases hg : getL fl (32 - (r + 1)) with _ | s
    · rw [hg] at h; exact Option.noConfusion h
    · rw [hg] at h
      have h2 : (if s.isEmpty = true then findClassAux fl r else some (32 - (r + 1))) = some i := h
      by_cases he : s.isEmpty
      · rw [if_pos he] at h2
        have := ih fl i h2
        refine ⟨by omega, this.2.1, this.2.2.1, this.2.2.2⟩
      · rw [if_neg he] at h2
        have hi : i = 32 - (r + 1) := (Option.some_inj.mp h2).symm
        subst hi
        refine ⟨le_rfl, by omega, ?_, getL_lt hg⟩
        rw [classList_eq_of_getL hg]
        simpa using he

/-- No free list holds the null address. -/
def zeroFree (fl : FL) : Prop := ∀ k, k < 32 → 0 ∉ classList fl k

/-- Every free block of class `k` is aligned to `2 ^ k`. -/
def AlignFL (fl : FL) : Prop := ∀ k, k < 32 → ∀ b ∈ classList fl k, b % 2 ^ k = 0

theorem freeSumAux_set : ∀ (fl : FL) (i : Nat) (l : List Nat) (k0 : Nat), i < fl.length →
    freeSumAux k0 (fl.set i l) + 2 ^ (k0 + i) * (classList fl i).length =
      freeSumAux k0 fl + 2 ^ (k0 + i) * l.length := by
  intro fl
  induction fl with
  | nil => intro i l k0 h; simp at h
  | cons x fls ih =>
    intro i l k0 h
    cases i with
    | zero =>
      simp only [List.set_cons_zero, freeSumAux, Nat.add_zero]
      have hx : classList (x :: fls) 0 = x := by simp [classList, getL]
      rw [hx]; ring
    | succ i =>
      simp only [List.set_cons_succ, freeSumAux]
      have hx : classList (x :: fls) (i + 1) = classList fls i := by
        simp [classList, getL]
      rw [hx]
      have hlen : i < fls.length := by simp at h; omega
      have := ih i l (k0 + 1) hlen
      have hexp : k0 + (i + 1) = k0 + 1 + i := by omega
      rw [hexp]
      linarith

theorem freeSum_set (fl : FL) (i : Nat) (l : List Nat) (h : i < fl.length) :
    freeSum (setL fl i l) + 2 ^ i * (classList fl i).length =
      freeSum fl + 2 ^ i * l.length := by
  have := freeSumAux_set fl i l 0 h
  simpa [freeSum, setL] using this

theorem heapSplitLoop_succ_eq {fl : FL} {cls n : Nat} {block : Nat} {rest : List Nat}
    (hget : getL fl (cls + n + 1) = some (block :: rest)) :
    heapSplitLoop (n + 1) fl cls =
      heapSplitLoop n
        (setL (setL (setL fl (cls + n + 1) rest) (cls + n)
            ((block + 1 <<< (cls + n)) :: classList (setL fl (cls + n + 1) rest) (cls + n)))
          (cls + n)
          (block :: classList (setL (setL fl (cls + n + 1) rest) (cls + n)
            ((block + 1 <<< (cls + n)) :: classList (setL fl (cls + n + 1) rest) (cls + n)))
            (cls + n)))
        cls := by
  simp only [heapSplitLoop, Nat.add_sub_cancel]
  rw [hget]

theorem one_shl (k : Nat) : 1 <<< k = 2 ^ k := by rw [Nat.shiftLeft_eq, one_mul]

/-- Closed form of the split cascade from class `cls + n + 1` down to `cls`:
the popped block `b` descends to the head of class `cls`, leaving its upper
half `b + 2 ^ k` at the head of every intermediate class `k`, and the total
free size is unchanged. -/
theorem heapSplitLoop_describe : ∀ n (fl : FL) cls b rest, fl.length = 32 →
    cls + n + 1 < 32 → classList fl (cls + n + 1) = b :: rest →
    ∃ fl', heapSplitLoop (n + 1) fl cls = some (fl', true) ∧ fl'.length = 32 ∧
      classList fl' (cls + n + 1) = rest ∧
      (∀ k, cls < k → k < cls + n + 1 → classList fl' k = (b + 2 ^ k) :: classList fl k) ∧
      classList fl' cls = b :: (b + 2 ^ cls) :: classList fl cls ∧
      (∀ k, k < cls ∨ cls + n + 1 < k → classList fl' k = classList fl k) ∧
      freeSum fl' = freeSum fl := by
  intro n
  induction n with
  | zero =>
    intro fl cls b rest hlen hlt hcl
    have hget : getL fl (cls + 0 + 1) = some (b :: rest) := by
      rw [getL_eq_some (by omega), hcl]
    rw [heapSplitLoop_succ_eq hget]
    simp only [Nat.add_zero, one_shl] at *
    have hlenA : (setL fl (cls + 1) rest).length = fl.length := length_setL _ _ _
    have hA : classList (setL fl (cls + 1) rest) cls = classList fl cls :=
      classList_setL_ne _ (by omega)
    rw [hA]
    set A := setL fl (cls + 1) rest with hAdef
    set LB := (b + 2 ^ cls) :: classList fl cls with hLBdef
    set B := setL A cls LB with hBdef
    have hB : classList B cls = LB := classList_setL_self _ (by rw [hAdef, length_setL]; omega)
    rw [hB]
    set C := setL B cls (b :: LB) with hCdef
    have hlenC : C.length = 32 := by rw [hCdef, length_setL, hBdef, length_setL, hAdef, length_setL, hlen]
    refine ⟨C, rfl, hlenC, ?_, ?_, ?_, ?_, ?_⟩
    · have h1 : classList C (cls + 1) = classList B (cls + 1) := classList_setL_ne _ (by omega)
      have h2 : classList B (cls + 1) = classList A (cls + 1) := classList_setL_ne _ (by omega)
      have h3 : classList A (cls + 1) = rest :=
        classList_setL_self _ (by rw [hlen]; omega)
      rw [h1, h2, h3]
    · intro k hk1 hk2; omega
    · have h1 : classList C cls = b :: LB := classList_setL_self _ (by rw [hBdef, length_setL, hAdef, length_setL, hlen]; omega)
      rw [h1]
    · intro k hk
      have h1 : classList C k = classList B k := classList_setL_ne _ (by omega)
      have h2 : classList B k = classList A k := classList_setL_ne _ (by omega)
      have h3 : classList A k = classList fl k := classList_setL_ne _ (by omega)
      rw [h1, h2, h3]
    · have e1 := freeSum_set fl (cls + 1) rest (by omega)
      rw [hcl] at e1
      have e2 := freeSum_set A cls LB (by rw [hAdef, length_setL]; omega)
      rw [hA] at e2
      have e3 := freeSum_set B cls (b :: LB) (by rw [hBdef, length_setL, hAdef, length_setL]; omega)
      rw [hB] at e3
      have hp : (2 : Nat) ^ (cls + 1) = 2 * 2 ^ cls := by rw [pow_succ]; ring
      simp only [List.length_cons, hLBdef] at e1 e2 e3
      rw [← hCdef] at e3
      simp only [hLBdef] at *
      linarith
  | succ n ih =>
    intro fl cls b rest hlen hlt hcl
    have hget : getL fl (cls + (n + 1) + 1) = some (b :: rest) := by
      rw [getL_eq_some (by omega), hcl]
    rw [heapSplitLoop_succ_eq hget]
    simp only [one_shl]
    have hA : classList (setL fl (cls + (n + 1) + 1) rest) (cls + (n + 1)) =
        classList fl (cls + (n + 1)) := classList_setL_ne _ (by omega)
    rw [hA]
    set A := setL fl (cls + (n + 1) + 1) rest with hAdef
    set LB := (b + 2 ^ (cls + (n + 1))) :: classList fl (cls + (n + 1)) with hLBdef
    set B := setL A (cls + (n + 1)) LB with hBdef
    have hlenA : A.length = 32 := by rw [hAdef, length_setL, hlen]
    have hlenB : B.length = 32 := by rw [hBdef, length_setL, hlenA]
    have hB : classList B (cls + (n + 1)) = LB := classList_setL_self _ (by omega)
    rw [hB]
    set C := setL B (cls + (n + 1)) (b :: LB) with hCdef
    have hlenC : C.length = 32 := by rw [hCdef, length_setL, hlenB]
    have hCtop : classList C (cls + n + 1) = b :: LB := by
      rw [hCdef]
      exact classList_setL_self _ (by omega)
    obtain ⟨fl', hrun, hlen', htop, hmid, hcls, hout, hsum⟩ :=
      ih C cls b ((b + 2 ^ (cls + (n + 1))) :: classList fl (cls + (n + 1))) hlenC (by omega)
        (by rw [hCtop, hLBdef])
    have hCout : ∀ k, k ≠ cls + (n + 1) → k ≠ cls + (n + 1) + 1 → classList C k = classList fl k := by
      intro k h1 h2
      rw [hCdef]
      rw [classList_setL_ne _ (by omega), hBdef, classList_setL_ne _ (by omega), hAdef,
        classList_setL_ne _ (by omega)]
    refine ⟨fl', hrun, hlen', ?_, ?_, ?_, ?_, ?_⟩
    · have h1 : classList fl' (cls + (n + 1) + 1) = classList C (cls + (n + 1) + 1) :=
        hout _ (by omega)
      have h2 : classList C (cls + (n + 1) + 1) = classList A (cls + (n + 1) + 1) := by
        rw [hCdef, classList_setL_ne _ (by omega), hBdef, classList_setL_ne _ (by omega)]
      have h3 : classList A (cls + (n + 1) + 1) = rest :=
        classList_setL_self _ (by omega)
      rw [h1, h2, h3]
    · intro k hk1 hk2
      rcases eq_or_ne k (cls + n + 1) with rfl | hne
      · rw [htop]; rfl
      · have h1 : classList fl' k = (b + 2 ^ k) :: classList C k := hmid k hk1 (by omega)
        rw [h1, hCout k (by omega) (by omega)]
    · rw [hcls, hCout cls (by omega) (by omega)]
    · intro k hk
      have h1 : classList fl' k = classList C k := hout k (by omega)
      rw [h1, hCout k (by omega) (by omega)]
    · rw [hsum]
      have e1 := freeSum_set fl (cls + (n + 1) + 1) rest (by omega)
      rw [hcl] at e1
      have e2 := freeSum_set A (cls + (n + 1)) LB (by omega)
      rw [hA] at e2
      have e3 := freeSum_set B (cls + (n + 1)) (b :: LB) (by omega)
      rw [hB] at e3
      have hp : (2 : Nat) ^ (cls + (n + 1) + 1) = 2 * 2 ^ (cls + (n + 1)) := by
        rw [pow_succ]; ring
      simp only [List.length_cons, hLBdef] at e1 e2 e3
      rw [← hCdef] at e3
      linarith

theorem heap_alloc_eq_pieces {h : Heap} {l : Layout} {i : Nat} {fl1 : FL} {b : Nat}
    {rest : List Nat}
    (hfind : findClassAux h.free_list (32 - trailing_zeros l.blockSize) = some i)
    (hsplit : heapSplitLoop (i - trailing_zeros l.blockSize) h.free_list
      (trailing_zeros l.blockSize) = some (fl1, true))
    (hget : getL fl1 (trailing_zeros l.blockSize) = some (b :: rest))
    (hb : b ≠ 0) :
    Heap.alloc h l =
      some (⟨setL fl1 (trailing_zeros l.blockSize) rest, h.user + l.size,
        h.allocated + l.blockSize, h.total⟩, some b) := by
  simp only [Heap.alloc, hfind, hsplit, hget, hb, if_false, reduceIte]

theorem heap_alloc_eq_of_find_none {h : Heap} {l : Layout}
    (hfind : findClassAux h.free_list (32 - trailing_zeros l.blockSize) = none) :
    Heap.alloc h l = some (h, none) := by
  simp only [Heap.alloc, hfind]

/-! ## Frame allocator: ordered-set lemmas -/

/-- Every class set of the array is strictly sorted — the `BTreeSet`
representation invariant. -/
def SortedFL (fl : FL) : Prop := ∀ k, k < 32 → (classList fl k).Sorted (· < ·)

theorem btInsert_ne_nil (x : Nat) (l : List Nat) : btInsert x l ≠ [] := by
  cases l with
  | nil => simp [btInsert]
  | cons y ys =>
    simp only [btInsert]
    split
    · simp
    · split <;> simp

theorem mem_btInsert (z x : Nat) : ∀ l : List Nat, (z ∈ btInsert x l ↔ z = x ∨ z ∈ l) := by
  intro l
  induction l with
  | nil => simp [btInsert]
  | cons y ys ih =>
    simp only [btInsert]
    by_cases h1 : x < y
    · rw [if_pos h1]
      simp only [List.mem_cons]
    · rw [if_neg h1]
      by_cases h2 : x = y
      · rw [if_pos h2]
        subst h2
        simp only [List.mem_cons]
        tauto
      · rw [if_neg h2]
        simp only [List.mem_cons, ih]
        tauto

theorem btInsert_sorted {x : Nat} : ∀ {l : List Nat}, l.Sorted (· < ·) →
    (btInsert x l).Sorted (· < ·) := by
  intro l
  induction l with
  | nil => intro _; simp [btInsert]
  | cons y ys ih =>
    intro hs
    rw [List.sorted_cons] at hs
    simp only [btInsert]
    split
    · rename_i hxy
      rw [List.sorted_cons]
      constructor
      · intro b hb
        rcases List.mem_cons.mp hb with rfl | hb2
        · exact hxy
        · exact lt_trans hxy (hs.1 b hb2)
      · rw [List.sorted_cons]; exact hs
    · split
      · rw [List.sorted_cons]; exact hs
      · rename_i hxy hxy2
        rw [List.sorted_cons]
        constructor
        · intro b hb
          rcases (mem_btInsert b x ys).mp hb with rfl | hb2
          · omega
          · exact hs.1 b hb2
        · exact ih hs.2

theorem erase_sorted {a : Nat} {l : List Nat} (h : l.Sorted (· < ·)) :
    (l.erase a).Sorted (· < ·) :=
  List.Pairwise.sublist (List.erase_sublist a l) h

/-- One-step unfolding of the frame split cascade. -/
theorem frameSplitLoop_succ_eq {fl : FL} {cls n : Nat} {s : List Nat} {block : Nat}
    (hget : getL fl (cls + n + 1) = some s) (hhead : s.head? = some block) :
    frameSplitLoop (n + 1) fl cls =
      frameSplitLoop n
        (setL (setL (setL fl (cls + n)
            (btInsert (block + 1 <<< (cls + n)) (classList fl (cls + n))))
          (cls + n)
          (btInsert block (classList (setL fl (cls + n)
            (btInsert (block + 1 <<< (cls + n)) (classList fl (cls + n)))) (cls + n))))
          (cls + n + 1) (s.erase block))
        cls := by
  simp only [frameSplitLoop, Nat.add_sub_cancel, hget, hhead]

theorem frameSplitLoop_props : ∀ n (fl : FL) cls, fl.length = 32 → cls + n < 32 →
    classList fl (cls + n) ≠ [] →
    ∃ fl', frameSplitLoop n fl cls = some (fl', true) ∧ fl'.length = 32 ∧
      classList fl' cls ≠ [] ∧ (SortedFL fl → SortedFL fl') := by
  intro n
  induction n with
  | zero =>
    intro fl cls hlen hlt hne
    exact ⟨fl, rfl, hlen, by simpa using hne, fun hs => hs⟩
  | succ n ih =>
    intro fl cls hlen hlt hne
    have hget : getL fl (cls + n + 1) = some (classList fl (cls + n + 1)) :=
      getL_eq_some (by omega)
    obtain ⟨block, t, hs⟩ : ∃ b t, classList fl (cls + n + 1) = b :: t := by
      rcases hcl : classList fl (cls + n + 1) with _ | ⟨b, t⟩
      · exact absurd hcl hne
      · exact ⟨b, t, rfl⟩
    have hhead : (classList fl (cls + n + 1)).head? = some block := by rw [hs]; rfl
    rw [frameSplitLoop_succ_eq hget hhead]
    set L1 := btInsert (block + 1 <<< (cls + n)) (classList fl (cls + n)) with hL1
    set A := setL fl (cls + n) L1 with hA
    have hlenA : A.length = 32 := by rw [hA, length_setL, hlen]
    have hAcn : classList A (cls + n) = L1 := classList_setL_self _ (by omega)
    rw [hAcn]
    set L2 := btInsert block L1 with hL2
    set B := setL A (cls + n) L2 with hB
    have hlenB : B.length = 32 := by rw [hB, length_setL, hlenA]
    set C := setL B (cls + n + 1) ((classList fl (cls + n + 1)).erase block) with hC
    have hlenC : C.length = 32 := by rw [hC, length_setL, hlenB]
    have hCcn : classList C (cls + n) = L2 := by
      rw [hC, classList_setL_ne _ (by omega), hB]
      exact classList_setL_self _ (by omega)
    obtain ⟨fl', hrun, hlen', hne', hsort⟩ := ih C cls hlenC (by omega)
      (by rw [hCcn, hL2]; exact btInsert_ne_nil _ _)
    refine ⟨fl', hrun, hlen', hne', ?_⟩
    intro hsfl
    apply hsort
    intro k hk
    rcases eq_or_ne k (cls + n) with rfl | hk1
    · rw [hCcn, hL2, hL1]
      exact btInsert_sorted (btInsert_sorted (hsfl _ hk))
    · rcases eq_or_ne k (cls + n + 1) with rfl | hk2
      · rw [hC, classList_setL_self _ (by omega)]
        exact erase_sorted (hsfl _ hk)
      · rw [hC, classList_setL_ne _ (Ne.symm hk2), hB, classList_setL_ne _ (Ne.symm hk1),
          hA, classList_setL_ne _ (Ne.symm hk1)]
        exact hsfl _ hk

theorem frame_alloc_eq_of_find_none {fa : FrameAllocator} {count : Nat}
    (hfind : findClassAux fa.free_list (32 - trailing_zeros (next_power_of_two count)) = none) :
    FrameAllocator.alloc fa count = some (fa, none) := by
  simp only [FrameAllocator.alloc, hfind]

theorem frame_alloc_eq_pieces {fa : FrameAllocator} {count i : Nat} {fl1 : FL}
    {s : List Nat} {r : Nat}
    (hfind : findClassAux fa.free_list (32 - trailing_zeros (next_power_of_two count)) = some i)
    (hsplit : frameSplitLoop (i - trailing_zeros (next_power_of_two count)) fa.free_list
      (trailing_zeros (next_power_of_two count)) = some (fl1, true))
    (hget : getL fl1 (trailing_zeros (next_power_of_two count)) = some s)
    (hhead : s.head? = some r) :
    FrameAllocator.alloc fa count =
      some (⟨setL fl1 (trailing_zeros (next_power_of_two count)) (s.erase r),
        fa.allocated + next_power_of_two count, fa.total⟩, some r) := by
  simp only [FrameAllocator.alloc, hfind, hsplit, hget, hhead]

theorem findClassAux_zero_none {fl : FL} {i : Nat} (h : findClassAux fl 0 = some i) : False := by
  simp [findClassAux] at h

/-- C6 (amended): an out-of-memory failure leaves the allocator unchanged —
for the heap on every state whose free lists do not hold the null address
(in particular on every state reachable through the public API), and for
the frame allocator on every state.  (With a null class-`class` block the
heap's `NonNull::new` rejection happens after the pop — see the
counterexample.) -/
theorem alloc_failure_preserves_state :
    (∀ (h h' : Heap) (l : Layout), h.free_list.length = 32 → zeroFree h.free_list →
      Heap.alloc h l = some (h', none) → h' = h) ∧
    (∀ (fa fa' : FrameAllocator) (count : Nat), fa.free_list.length = 32 →
      FrameAllocator.alloc fa count = some (fa', none) → fa' = fa) := by
  constructor
  · intro h h' l hlen hzf heq
    rcases hfind : findClassAux h.free_list (32 - trailing_zeros l.blockSize) with _ | i
    · rw [heap_alloc_eq_of_find_none hfind] at heq
      simp only [Option.some_inj, Prod.mk.injEq] at heq
      exact heq.1.symm
    · exfalso
      obtain ⟨hge, hi32, hne, hilen⟩ := findClassAux_some _ _ _ hfind
      have hcls32 : trailing_zeros l.blockSize ≤ 32 := by
        by_contra hc
        rw [show 32 - trailing_zeros l.blockSize = 0 by omega] at hfind
        exact findClassAux_zero_none hfind
      have hclsi : trailing_zeros l.blockSize ≤ i := by omega
      rcases hcl : classList h.free_list i with _ | ⟨b, rest⟩
      · exact hne hcl
      have hbmem : b ∈ classList h.free_list i := by rw [hcl]; exact List.mem_cons_self _ _
      have hb0 : b ≠ 0 := fun h0 => hzf i hi32 (h0 ▸ hbmem)
      rcases Nat.eq_or_lt_of_le hclsi with heqc | hltc
      · have hsplit : heapSplitLoop (i - trailing_zeros l.blockSize) h.free_list
            (trailing_zeros l.blockSize) = some (h.free_list, true) := by
          rw [show i - trailing_zeros l.blockSize = 0 by omega]
          rfl
        have hget2 : getL h.free_list (trailing_zeros l.blockSize) = some (b :: rest) := by
          rw [getL_eq_some (by omega : trailing_zeros l.blockSize < h.free_list.length)]
          rw [heqc, hcl]
        rw [heap_alloc_eq_pieces hfind hsplit hget2 hb0] at heq
        simp at heq
      · obtain ⟨n, hn⟩ : ∃ n, i = trailing_zeros l.blockSize + n + 1 :=
          ⟨i - trailing_zeros l.blockSize - 1, by omega⟩
        subst hn
        obtain ⟨fl', hrun, hlen', htop, hmid, hcls2, hout, hsum⟩ :=
          heapSplitLoop_describe n h.free_list (trailing_zeros l.blockSize) b rest hlen
            (by omega) hcl
        have hsplit : heapSplitLoop (trailing_zeros l.blockSize + n + 1 - trailing_zeros l.blockSize)
            h.free_list (trailing_zeros l.blockSize) = some (fl', true) := by
          rw [show trailing_zeros l.blockSize + n + 1 - trailing_zeros l.blockSize = n + 1 by omega]
          exact hrun
        have hget2 : getL fl' (trailing_zeros l.blockSize) =
            some (b :: (b + 2 ^ trailing_zeros l.blockSize) ::
              classList h.free_list (trailing_zeros l.blockSize)) := by
          rw [getL_eq_some (by omega), hcls2]
        rw [heap_alloc_eq_pieces hfind hsplit hget2 hb0] at heq
        simp at heq
  · intro fa fa' count hlen heq
    rcases hfind : findClassAux fa.free_list (32 - trailing_zeros (next_power_of_two count))
      with _ | i
    · rw [frame_alloc_eq_of_find_none hfind] at heq
      simp only [Option.some_inj, Prod.mk.injEq] at heq
      exact heq.1.symm
    · exfalso
      obtain ⟨hge, hi32, hne, hilen⟩ := findClassAux_some _ _ _ hfind
      have hcls32 : trailing_zeros (next_power_of_two count) ≤ 32 := by
        by_contra hc
        rw [show 32 - trailing_zeros (next_power_of_two count) = 0 by omega] at hfind
        exact findClassAux_zero_none hfind
      have hclsi : trailing_zeros (next_power_of_two count) ≤ i := by omega
      obtain ⟨fl', hrun, hlen', hne', hsort⟩ :=
        frameSplitLoop_props (i - trailing_zeros (next_power_of_two count)) fa.free_list
          (trailing_zeros (next_power_of_two count)) hlen
          (by omega)
          (by rw [show trailing_zeros (next_power_of_two count) +
              (i - trailing_zeros (next_power_of_two count)) = i by omega]; exact hne)
      rcases hcl : classList fl' (trailing_zeros (next_power_of_two count)) with _ | ⟨x, t⟩
      · exact hne' hcl
      have hget2 : getL fl' (trailing_zeros (next_power_of_two count)) = some (x :: t) := by
        rw [getL_eq_some (by omega), hcl]
      have hhead : (x :: t).head? = some x := rfl
      rw [frame_alloc_eq_pieces hfind hrun hget2 hhead] at heq
      simp at heq

/-- Witness for `alloc_failure_preserves_state`: allocating from either
freshly-created (empty) allocator fails and leaves it unchanged. -/
theorem alloc_failure_preserves_state_w :
    Heap.new = Heap.new ∧ FrameAllocator.new = FrameAllocator.new :=
  ⟨alloc_failure_preserves_state.1 Heap.new Heap.new ⟨1, 1⟩ (by decide)
      (show ∀ k, k < 32 → 0 ∉ classList Heap.new.free_list k by decide) (by decide),
   alloc_failure_preserves_state.2 FrameAllocator.new FrameAllocator.new 1 (by decide)
      (by decide)⟩

/-- C10: `FrameAllocator::alloc` is a function of the state (determinism is
definitional in the model), and with the `BTreeSet` representation invariant
— every class set strictly sorted — the returned frame is the minimum of the
target class's set after the split cascade: every frame still free in the
target class is strictly greater, and sortedness is preserved.  (Each split
step likewise takes `iter().next()`, the head of a sorted set, i.e. the
minimum of its class.) -/
theorem frame_alloc_returns_least :
    ∀ (fa fa' : FrameAllocator) (count r : Nat), fa.free_list.length = 32 →
      SortedFL fa.free_list →
      FrameAllocator.alloc fa count = some (fa', some r) →
      SortedFL fa'.free_list ∧
      ∀ x ∈ classList fa'.free_list (trailing_zeros (next_power_of_two count)), r < x := by
  intro fa fa' count r hlen hsorted heq
  rcases hfind : findClassAux fa.free_list (32 - trailing_zeros (next_power_of_two count))
    with _ | i
  · rw [frame_alloc_eq_of_find_none hfind] at heq
    simp at heq
  · obtain ⟨hge, hi32, hne, hilen⟩ := findClassAux_some _ _ _ hfind
    have hcls32 : trailing_zeros (next_power_of_two count) ≤ 32 := by
      by_contra hc
      rw [show 32 - trailing_zeros (next_power_of_two count) = 0 by omega] at hfind
      exact findClassAux_zero_none hfind
    have hclsi : trailing_zeros (next_power_of_two count) ≤ i := by omega
    obtain ⟨fl', hrun, hlen', hne', hsort⟩ :=
      frameSplitLoop_props (i - trailing_zeros (next_power_of_two count)) fa.free_list
        (trailing_zeros (next_power_of_two count)) hlen
        (by omega)
        (by rw [show trailing_zeros (next_power_of_two count) +
            (i - trailing_zeros (next_power_of_two count)) = i by omega]; exact hne)
    rcases hcl : classList fl' (trailing_zeros (next_power_of_two count)) with _ | ⟨x, t⟩
    · exact absurd hcl hne'
    have hget2 : getL fl' (trailing_zeros (next_power_of_two count)) = some (x :: t) := by
      rw [getL_eq_some (by omega), hcl]
    have hhead : (x :: t).head? = some x := rfl
    rw [frame_alloc_eq_pieces hfind hrun hget2 hhead] at heq
    have hpair := Option.some_inj.mp heq
    have hxr : x = r := by
      have := congrArg Prod.snd hpair
      simpa using this
    have hfa : (⟨setL fl' (trailing_zeros (next_power_of_two count)) ((x :: t).erase x),
        fa.allocated + next_power_of_two count, fa.total⟩ : FrameAllocator) = fa' :=
      congrArg Prod.fst hpair
    have hsfl : SortedFL fl' := hsort hsorted
    have hxt : (x :: t).Sorted (· < ·) := by rw [← hcl]; exact hsfl _ (by omega)
    have herase : (x :: t).erase x = t := List.erase_cons_head x t
    rw [← hfa, ← hxr]
    have hclslt : trailing_zeros (next_power_of_two count) < fl'.length := by omega
    constructor
    · intro k hk
      rcases eq_or_ne k (trailing_zeros (next_power_of_two count)) with rfl | hkne
      · rw [herase, classList_setL_self t hclslt]
        exact (List.sorted_cons.mp hxt).2
      · rw [herase, classList_setL_ne t (Ne.symm hkne)]
        exact hsfl _ hk
    · intro y hy
      rw [herase, classList_setL_self t hclslt] at hy
      exact (List.sorted_cons.mp hxt).1 y hy

/-- Witness for `frame_alloc_returns_least`: the frame pool `[0, 8)` holds a
single class-3 block; `alloc(1)` splits it down and returns frame 0, the
minimum, and the remaining class-0 set `{1}` is strictly above it. -/
theorem frame_alloc_returns_least_w :
    SortedFL (⟨setL (setL (setL (List.replicate 32 []) 0 [1]) 1 [2]) 2 [4], 1, 8⟩ :
      FrameAllocator).free_list ∧
    ∀ x ∈ classList (⟨setL (setL (setL (List.replicate 32 []) 0 [1]) 1 [2]) 2 [4], 1, 8⟩ :
      FrameAllocator).free_list (trailing_zeros (next_power_of_two 1)), 0 < x :=
  frame_alloc_returns_least ⟨setL (List.replicate 32 []) 3 [0], 0, 8⟩
    ⟨setL (setL (setL (List.replicate 32 []) 0 [1]) 1 [2]) 2 [4], 1, 8⟩ 1 0
    (by decide)
    (show ∀ k, k < 32 →
      (classList (⟨setL (List.replicate 32 []) 3 [0], 0, 8⟩ :
        FrameAllocator).free_list k).Sorted (· < ·) by decide)
    (by decide)

theorem xor_odd_odd (a b : Nat) : 2 * a + 1 ^^^ 2 * b + 1 = 2 * (a ^^^ b) := by
  have := Nat.xor_bit true a true b
  simpa [Nat.bit] using this

theorem xor_mul_pow (k a b : Nat) : 2 ^ k * a ^^^ 2 ^ k * b = 2 ^ k * (a ^^^ b) := by
  induction k with
  | zero => simp
  | succ k ih =>
    have h1 : 2 ^ (k + 1) * a = 2 * (2 ^ k * a) := by ring
    have h2 : 2 ^ (k + 1) * b = 2 * (2 ^ k * b) := by ring
    have h3 : 2 ^ (k + 1) * (a ^^^ b) = 2 * (2 ^ k * (a ^^^ b)) := by ring
    rw [h1, h2, h3, xor_two_mul, ih]

theorem xor_one_even (u : Nat) : 2 * u ^^^ 1 = 2 * u + 1 := by
  have h1 : (1 : Nat) = 2 * 0 + 1 := rfl
  rw [h1, xor_even_odd, Nat.xor_zero]

theorem xor_one_odd (u : Nat) : 2 * u + 1 ^^^ 1 = 2 * u := by
  have h1 : (1 : Nat) = 2 * 0 + 1 := rfl
  rw [h1, xor_odd_odd, Nat.xor_zero]

theorem xor_two_pow_ne (a k : Nat) : a ^^^ 2 ^ k ≠ a := by
  intro h
  have h2 : a ^^^ (a ^^^ 2 ^ k) = a ^^^ a := congrArg (fun t => a ^^^ t) h
  rw [← Nat.xor_assoc, Nat.xor_self, Nat.zero_xor] at h2
  have : (0 : Nat) < 2 ^ k := by positivity
  omega

/-- An aligned block and its computed buddy: the smaller of the two is
aligned one class higher. -/
theorem min_xor_two_pow {a k : Nat} (h : a % 2 ^ k = 0) :
    min a (a ^^^ 2 ^ k) % 2 ^ (k + 1) = 0 := by
  obtain ⟨q, hq⟩ : ∃ q, a = 2 ^ k * q :=
    ⟨a / 2 ^ k, by rw [Nat.mul_comm]; exact (Nat.div_mul_cancel (Nat.dvd_of_mod_eq_zero h)).symm⟩
  subst hq
  have hx : 2 ^ k * q ^^^ 2 ^ k = 2 ^ k * (q ^^^ 1) := by
    have h1 : (2 : Nat) ^ k = 2 ^ k * 1 := by ring
    calc 2 ^ k * q ^^^ 2 ^ k = 2 ^ k * q ^^^ 2 ^ k * 1 := by rw [← h1]
      _ = 2 ^ k * (q ^^^ 1) := xor_mul_pow k q 1
  rw [hx]
  rcases Nat.mod_two_eq_zero_or_one q with hpar | hpar
  · obtain ⟨u, rfl⟩ : ∃ u, q = 2 * u := ⟨q / 2, by omega⟩
    rw [xor_one_even]
    have hmin : min (2 ^ k * (2 * u)) (2 ^ k * (2 * u + 1)) = 2 ^ k * (2 * u) := by
      apply min_eq_left
      apply Nat.mul_le_mul_left
      omega
    rw [hmin, pow_succ]
    have : 2 ^ k * (2 * u) = 2 ^ k * 2 * u := by ring
    rw [this]
    exact Nat.mul_mod_right _ _
  · obtain ⟨u, rfl⟩ : ∃ u, q = 2 * u + 1 := ⟨q / 2, by omega⟩
    rw [xor_one_odd]
    have hmin : min (2 ^ k * (2 * u + 1)) (2 ^ k * (2 * u)) = 2 ^ k * (2 * u) := by
      apply min_eq_right
      apply Nat.mul_le_mul_left
      omega
    rw [hmin, pow_succ]
    have : 2 ^ k * (2 * u) = 2 ^ k * 2 * u := by ring
    rw [this]
    exact Nat.mul_mod_right _ _

/-- An aligned block's buddy one class below lies just above it. -/
theorem xor_two_pow_of_aligned {b c : Nat} (h : b % 2 ^ (c + 1) = 0) :
    b ^^^ 2 ^ c = b + 2 ^ c := by
  obtain ⟨v, hv⟩ : ∃ v, b = 2 ^ (c + 1) * v :=
    ⟨b / 2 ^ (c + 1), by
      rw [Nat.mul_comm]; exact (Nat.div_mul_cancel (Nat.dvd_of_mod_eq_zero h)).symm⟩
  subst hv
  have h1 : 2 ^ (c + 1) * v = 2 ^ c * (2 * v) := by ring
  have h2 : (2 : Nat) ^ c = 2 ^ c * 1 := by ring
  calc 2 ^ (c + 1) * v ^^^ 2 ^ c = 2 ^ c * (2 * v) ^^^ 2 ^ c * 1 := by rw [← h1, ← h2]
    _ = 2 ^ c * (2 * v ^^^ 1) := xor_mul_pow c (2 * v) 1
    _ = 2 ^ c * (2 * v + 1) := by rw [xor_one_even]
    _ = 2 ^ (c + 1) * v + 2 ^ c := by ring

theorem tzAux_le_fuel : ∀ f n, tzAux f n ≤ f := by
  intro f
  induction f with
  | zero => intro n; simp [tzAux]
  | succ f ih =>
    intro n
    rw [tzAux_succ]
    split
    · omega
    · have := ih (n / 2); omega

theorem tzAux_two_pow_ge : ∀ f k, f ≤ k → tzAux f (2 ^ k) = f := by
  intro f
  induction f with
  | zero => intro k h; simp [tzAux]
  | succ f ih =>
    intro k h
    rw [tzAux_succ]
    have h0 : ¬(2 ^ k % 2 = 1) := by
      rcases Nat.exists_eq_add_of_le h with ⟨m, rfl⟩
      have : (2 : Nat) ^ (f + 1 + m) = 2 * 2 ^ (f + m) := by ring
      omega
    rw [if_neg h0]
    rcases Nat.exists_eq_add_of_le h with ⟨m, rfl⟩
    have hdiv : 2 ^ (f + 1 + m) / 2 = 2 ^ (f + m) := by
      have : (2 : Nat) ^ (f + 1 + m) = 2 ^ (f + m) * 2 := by ring
      omega
    rw [hdiv, ih (f + m) (by omega)]

theorem lowbit_zero_val : lowbit 0 = 0 := by decide

theorem lowbit_of_ge {c : Nat} (h : 2 ^ 64 ≤ c) : lowbit c = 0 := by
  unfold lowbit
  rw [Nat.sub_eq_zero_of_le h]
  simp

theorem heap_loop_size_shape (cur e : Nat) (h0 : 0 < cur) (h64 : cur < 2 ^ 64)
    (hec : 0 < e - cur) :
    ∃ m, min (lowbit cur) (prev_power_of_two (e - cur)) = 2 ^ m ∧ m < 64 ∧
      trailing_zeros (min (lowbit cur) (prev_power_of_two (e - cur))) = m ∧
      cur % 2 ^ m = 0 := by
  rw [lowbit_eq cur h0 h64, prev_power_of_two_eq _ hec, min_two_pow]
  have hbl : bitLen (e - cur) ≤ 64 := bitLenAux_le 64 _
  refine ⟨min (trailing_zeros cur) (bitLen (e - cur) - 1), rfl, by omega, ?_, ?_⟩
  · exact trailing_zeros_two_pow _ (by omega)
  · have hdvd : (2 : Nat) ^ min (trailing_zeros cur) (bitLen (e - cur) - 1) ∣ cur :=
      dvd_trans (pow_dvd_pow 2 (min_le_left _ _)) (two_pow_trailing_zeros_dvd cur h0)
    omega

theorem addToHeapLoop_inv : ∀ fuel (fl : FL) em cur e fl' em', fl.length = 32 →
    addToHeapLoop fuel fl em cur e = some (fl', em') →
    fl'.length = 32 ∧ (AlignFL fl → AlignFL fl') ∧
    freeSum fl' + em = freeSum fl + em' := by
  intro fuel
  induction fuel with
  | zero => intro fl em cur e fl' em' hlen heq; exact Option.noConfusion heq
  | succ fuel ih =>
    intro fl em cur e fl' em' hlen heq
    simp only [addToHeapLoop] at heq
    by_cases hguard : cur + 8 ≤ e
    · rw [if_pos hguard] at heq
      rcases hg : getL fl (trailing_zeros (min (lowbit cur) (prev_power_of_two (e - cur))))
        with _ | lst
      · rw [hg] at heq; exact Option.noConfusion heq
      · rw [hg] at heq
        replace heq : addToHeapLoop fuel
            (setL fl (trailing_zeros (min (lowbit cur) (prev_power_of_two (e - cur))))
              (cur :: lst))
            (em + min (lowbit cur) (prev_power_of_two (e - cur)))
            (cur + min (lowbit cur) (prev_power_of_two (e - cur))) e = some (fl', em') := heq
        have hclslt : trailing_zeros (min (lowbit cur) (prev_power_of_two (e - cur))) < 32 := by
          have := getL_lt hg; omega
        have hsz : min (lowbit cur) (prev_power_of_two (e - cur)) ≠ 0 := by
          intro h0
          rw [h0, show trailing_zeros 0 = 64 from rfl] at hclslt
          omega
        have hlow : lowbit cur ≠ 0 := by
          intro h0; apply hsz; rw [h0]; exact Nat.zero_min _
        have hcur0 : 0 < cur := by
          rcases Nat.eq_zero_or_pos cur with rfl | h
          · exact absurd lowbit_zero_val hlow
          · exact h
        have hcur64 : cur < 2 ^ 64 := by
          by_contra hc
          exact hlow (lowbit_of_ge (by omega))
        obtain ⟨m, hm, hm64, htz, halign⟩ := heap_loop_size_shape cur e hcur0 hcur64 (by omega)
        obtain ⟨hlen', himp, hsum⟩ := ih _ _ _ _ _ _ (by rw [length_setL, hlen]) heq
        have hcl : classList fl (trailing_zeros (min (lowbit cur)
            (prev_power_of_two (e - cur)))) = lst := classList_eq_of_getL hg
        refine ⟨hlen', ?_, ?_⟩
        · intro hal
          apply himp
          intro k hk b hb
          rcases eq_or_ne k (trailing_zeros (min (lowbit cur) (prev_power_of_two (e - cur))))
            with rfl | hkne
          · rw [classList_setL_self _ (by omega)] at hb
            rcases List.mem_cons.mp hb with rfl | hb2
            · rw [htz]; exact halign
            · exact hal _ hk b (by rw [hcl]; exact hb2)
          · rw [classList_setL_ne _ (Ne.symm hkne)] at hb
            exact hal _ hk b hb
        · have hfs := freeSum_set fl
            (trailing_zeros (min (lowbit cur) (prev_power_of_two (e - cur)))) (cur :: lst)
            (by omega)
          rw [hcl] at hfs
          simp only [List.length_cons] at hfs
          have h2 : 2 ^ trailing_zeros (min (lowbit cur) (prev_power_of_two (e - cur))) =
              min (lowbit cur) (prev_power_of_two (e - cur)) := by rw [htz, hm]
          rw [h2] at hfs
          linarith
    · rw [if_neg hguard] at heq
      replace heq : some ((fl, em) : FL × Nat) = some (fl', em') := heq
      obtain ⟨h1, h2⟩ := Prod.mk.injEq .. ▸ Option.some_inj.mp heq
      subst h1; subst h2
      exact ⟨hlen, fun a => a, rfl⟩

theorem heap_add_inv {h h' : Heap} {s e : Nat} (hlen : h.free_list.length = 32)
    (heq : Heap.add_to_heap h s e = some h') :
    h'.free_list.length = 32 ∧ (AlignFL h.free_list → AlignFL h'.free_list) ∧
    h'.user = h.user ∧ h'.allocated = h.allocated ∧
    h'.total + freeSum h.free_list = h.total + freeSum h'.free_list ∧ h.total ≤ h'.total := by
  unfold Heap.add_to_heap at heq
  by_cases hse : s ≤ e
  · rw [if_pos hse] at heq
    rcases hloop : addToHeapLoop (e - s + 1) h.free_list 0 s e with _ | ⟨fl, em⟩
    · rw [hloop] at heq; exact Option.noConfusion heq
    · rw [hloop] at heq
      replace heq : some (⟨fl, h.user, h.allocated, h.total + em⟩ : Heap) = some h' := heq
      obtain rfl := (Option.some_inj.mp heq).symm
      obtain ⟨hlen', himp, hsum⟩ := addToHeapLoop_inv _ _ _ _ _ _ _ hlen hloop
      exact ⟨hlen', himp, rfl, rfl, by simp; omega, by simp⟩
  · rw [if_neg hse] at heq; exact Option.noConfusion heq

theorem heapDeallocLoop_inv : ∀ fuel (fl : FL) cur cls fl', fl.length = 32 →
    AlignFL fl → cur % 2 ^ cls = 0 →
    (∃ t, classList fl cls = cur :: t) →
    heapDeallocLoop fuel fl cur cls = some fl' →
    fl'.length = 32 ∧ AlignFL fl' ∧ freeSum fl' = freeSum fl := by
  intro fuel
  induction fuel with
  | zero => intro fl cur cls fl' _ _ _ _ heq; exact Option.noConfusion heq
  | succ fuel ih =>
    intro fl cur cls fl' hlen hal hcur hex heq
    obtain ⟨t, hhead⟩ := hex
    simp only [heapDeallocLoop, one_shl] at heq
    by_cases hc : cls < 32
    · rw [if_pos hc] at heq
      by_cases hb : cur ^^^ 2 ^ cls ∈ classList fl cls
      · rw [if_pos hb] at heq
        by_cases h31 : cls + 1 < 32
        · rw [if_pos h31] at heq
          have hbuddyne : cur ^^^ 2 ^ cls ≠ cur := xor_two_pow_ne cur cls
          have hbt : cur ^^^ 2 ^ cls ∈ t := by
            rw [hhead] at hb
            rcases List.mem_cons.mp hb with h1 | h1
            · exact absurd h1 hbuddyne
            · exact h1
          have herase : (cur :: t).erase (cur ^^^ 2 ^ cls) =
              cur :: t.erase (cur ^^^ 2 ^ cls) := by
            rw [List.erase_cons, if_neg (by simp only [beq_iff_eq]; exact fun h => hbuddyne h.symm)]
          rw [hhead, herase, List.tail_cons] at heq
          have htlen : 0 < t.length := List.length_pos_of_mem hbt
          have hclsfl : cls < fl.length := by omega
          have hcls1 : cls + 1 < (setL fl cls (t.erase (cur ^^^ 2 ^ cls))).length := by
            rw [length_setL]; omega
          have halign1 : AlignFL (setL fl cls (t.erase (cur ^^^ 2 ^ cls))) := by
            intro k hk b hbm
            rcases eq_or_ne k cls with rfl | hkne
            · rw [classList_setL_self _ hclsfl] at hbm
              apply hal _ hk
              rw [hhead]
              exact List.mem_cons_of_mem _ (List.mem_of_mem_erase hbm)
            · rw [classList_setL_ne _ (Ne.symm hkne)] at hbm
              exact hal _ hk b hbm
          have hmal : min cur (cur ^^^ 2 ^ cls) % 2 ^ (cls + 1) = 0 := min_xor_two_pow hcur
          have halign2 : AlignFL (setL (setL fl cls (t.erase (cur ^^^ 2 ^ cls))) (cls + 1)
              (min cur (cur ^^^ 2 ^ cls) ::
                classList (setL fl cls (t.erase (cur ^^^ 2 ^ cls))) (cls + 1))) := by
            intro k hk b hbm
            rcases eq_or_ne k (cls + 1) with rfl | hkne
            · rw [classList_setL_self _ hcls1] at hbm
              rcases List.mem_cons.mp hbm with hb1 | hb1
              · rw [hb1]; exact hmal
              · exact halign1 _ hk b hb1
            · rw [classList_setL_ne _ (Ne.symm hkne)] at hbm
              exact halign1 _ hk b hbm
          obtain ⟨hlen', hal', hsum'⟩ := ih _ _ _ _
            (by rw [length_setL, length_setL, hlen]) halign2 hmal
            ⟨classList (setL fl cls (t.erase (cur ^^^ 2 ^ cls))) (cls + 1),
              classList_setL_self _ hcls1⟩ heq
          refine ⟨hlen', hal', ?_⟩
          rw [hsum']
          have e1 := freeSum_set fl cls (t.erase (cur ^^^ 2 ^ cls)) hclsfl
          rw [hhead] at e1
          have e2 := freeSum_set (setL fl cls (t.erase (cur ^^^ 2 ^ cls))) (cls + 1)
            (min cur (cur ^^^ 2 ^ cls) ::
              classList (setL fl cls (t.erase (cur ^^^ 2 ^ cls))) (cls + 1)) hcls1
          simp only [List.length_cons] at e1 e2
          have hlerase : (t.erase (cur ^^^ 2 ^ cls)).length = t.length - 1 :=
            List.length_erase_of_mem hbt
          rw [hlerase] at e1
          have hexp1 : 2 ^ cls * (t.length + 1) = 2 ^ cls * (t.length - 1) + 2 ^ cls * 2 := by
            have : t.length + 1 = (t.length - 1) + 2 := by omega
            rw [this]; ring
          have hexp2 : (2 : Nat) ^ (cls + 1) = 2 ^ cls * 2 := by rw [pow_succ]
          linarith
        · rw [if_neg h31] at heq; exact Option.noConfusion heq
      · rw [if_neg hb] at heq
        obtain rfl := (Option.some_inj.mp heq).symm
        exact ⟨hlen, hal, rfl⟩
    · rw [if_neg hc] at heq
      obtain rfl := (Option.some_inj.mp heq).symm
      exact ⟨hlen, hal, rfl⟩

theorem heap_dealloc_inv {h h' : Heap} {p : Nat} {l : Layout} (hlen : h.free_list.length = 32)
    (hal : AlignFL h.free_list) (hp : p % l.blockSize = 0)
    (hbs : l.blockSize = 2 ^ trailing_zeros l.blockSize)
    (heq : Heap.dealloc h p l = some h') :
    h'.free_list.length = 32 ∧ AlignFL h'.free_list ∧
    h'.user = h.user - l.size ∧ h'.allocated = h.allocated - l.blockSize ∧
    h'.total = h.total ∧
    freeSum h'.free_list = freeSum h.free_list + l.blockSize := by
  simp only [Heap.dealloc] at heq
  rcases hget : getL h.free_list (trailing_zeros l.blockSize) with _ | s
  · rw [hget] at heq; exact Option.noConfusion heq
  · rw [hget] at heq
    replace heq : (match heapDeallocLoop 33
        (setL h.free_list (trailing_zeros l.blockSize) (p :: s)) p
        (trailing_zeros l.blockSize) with
      | none => none
      | some fl1 =>
        some (⟨fl1, h.user - l.size, h.allocated - l.blockSize, h.total⟩ : Heap)) =
        some h' := heq
    rcases hloop : heapDeallocLoop 33 (setL h.free_list (trailing_zeros l.blockSize) (p :: s))
        p (trailing_zeros l.blockSize) with _ | fl1
    · rw [hloop] at heq; exact Option.noConfusion heq
    · rw [hloop] at heq
      replace heq : some (⟨fl1, h.user - l.size, h.allocated - l.blockSize, h.total⟩ : Heap) =
        some h' := heq
      obtain rfl := (Option.some_inj.mp heq).symm
      have hclslt : trailing_zeros l.blockSize < h.free_list.length := getL_lt hget
      have hcl : classList h.free_list (trailing_zeros l.blockSize) = s :=
        classList_eq_of_getL hget
      have hpal : p % 2 ^ trailing_zeros l.blockSize = 0 := by rw [← hbs]; exact hp
      have halign0 : AlignFL (setL h.free_list (trailing_zeros l.blockSize) (p :: s)) := by
        intro k hk b hbm
        rcases eq_or_ne k (trailing_zeros l.blockSize) with rfl | hkne
        · rw [classList_setL_self _ hclslt] at hbm
          rcases List.mem_cons.mp hbm with rfl | hb1
          · exact hpal
          · exact hal _ hk b (by rw [hcl]; exact hb1)
        · rw [classList_setL_ne _ (Ne.symm hkne)] at hbm
          exact hal _ hk b hbm
      obtain ⟨hlen', hal', hsum'⟩ := heapDeallocLoop_inv 33 _ p _ fl1
        (by rw [length_setL, hlen]) halign0 hpal
        ⟨s, classList_setL_self _ hclslt⟩ hloop
      refine ⟨hlen', hal', rfl, rfl, rfl, ?_⟩
      rw [hsum']
      have e1 := freeSum_set h.free_list (trailing_zeros l.blockSize) (p :: s) hclslt
      rw [hcl] at e1
      simp only [List.length_cons] at e1
      have hbs2 : 2 ^ trailing_zeros l.blockSize = l.blockSize := hbs.symm
      have hexp : 2 ^ trailing_zeros l.blockSize * (s.length + 1) =
          2 ^ trailing_zeros l.blockSize * s.length + 2 ^ trailing_zeros l.blockSize := by ring
      rw [hexp] at e1
      linarith

theorem mod_eq_zero_of_dvd_mod {a c d : Nat} (hd : d ∣ c) (h : a % c = 0) : a % d = 0 := by
  have h1 : c ∣ a := Nat.dvd_of_mod_eq_zero h
  obtain ⟨q, rfl⟩ := dvd_trans hd h1
  exact Nat.mul_mod_right d q

theorem heap_alloc_eq_pieces_null {h : Heap} {l : Layout} {i : Nat} {fl1 : FL}
    {rest : List Nat}
    (hfind : findClassAux h.free_list (32 - trailing_zeros l.blockSize) = some i)
    (hsplit : heapSplitLoop (i - trailing_zeros l.blockSize) h.free_list
      (trailing_zeros l.blockSize) = some (fl1, true))
    (hget : getL fl1 (trailing_zeros l.blockSize) = some (0 :: rest)) :
    Heap.alloc h l =
      some (⟨setL fl1 (trailing_zeros l.blockSize) rest, h.user, h.allocated, h.total⟩,
        none) := by
  simp only [Heap.alloc, hfind, hsplit, hget, reduceIte]

theorem heap_alloc_some_inv {h h' : Heap} {l : Layout} {p : Nat}
    (hlen : h.free_list.length = 32) (hal : AlignFL h.free_list)
    (heq : Heap.alloc h l = some (h', some p)) :
    h'.free_list.length = 32 ∧ AlignFL h'.free_list ∧
    h'.user = h.user + l.size ∧ h'.allocated = h.allocated + l.blockSize ∧
    h'.total = h.total ∧
    freeSum h.free_list = freeSum h'.free_list + 2 ^ trailing_zeros l.blockSize ∧
    trailing_zeros l.blockSize < 32 ∧
    p % 2 ^ trailing_zeros l.blockSize = 0 := by
  rcases hfind : findClassAux h.free_list (32 - trailing_zeros l.blockSize) with _ | i
  · rw [heap_alloc_eq_of_find_none hfind] at heq
    simp at heq
  · obtain ⟨hge, hi32, hne, hilen⟩ := findClassAux_some _ _ _ hfind
    have hcls32 : trailing_zeros l.blockSize ≤ 32 := by
      by_contra hc
      rw [show 32 - trailing_zeros l.blockSize = 0 by omega] at hfind
      exact findClassAux_zero_none hfind
    have hclsi : trailing_zeros l.blockSize ≤ i := by omega
    rcases hcl : classList h.free_list i with _ | ⟨b, rest⟩
    · exact absurd hcl hne
    have hbal : b % 2 ^ i = 0 := hal i hi32 b (by rw [hcl]; exact List.mem_cons_self _ _)
    have hbcls : b % 2 ^ trailing_zeros l.blockSize = 0 := by
      have hdvd : (2 : Nat) ^ trailing_zeros l.blockSize ∣ 2 ^ i := pow_dvd_pow 2 hclsi
      exact mod_eq_zero_of_dvd_mod hdvd hbal
    rcases Nat.eq_or_lt_of_le hclsi with heqc | hltc
    · have hsplit : heapSplitLoop (i - trailing_zeros l.blockSize) h.free_list
          (trailing_zeros l.blockSize) = some (h.free_list, true) := by
        rw [show i - trailing_zeros l.blockSize = 0 by omega]
        rfl
      have hget2 : getL h.free_list (trailing_zeros l.blockSize) = some (b :: rest) := by
        rw [getL_eq_some (by omega : trailing_zeros l.blockSize < h.free_list.length)]
        rw [heqc, hcl]
      rcases eq_or_ne b 0 with rfl | hb0
      · rw [heap_alloc_eq_pieces_null hfind hsplit hget2] at heq
        simp at heq
      · rw [heap_alloc_eq_pieces hfind hsplit hget2 hb0] at heq
        have hpair := Option.some_inj.mp heq
        have hbp : b = p := by have := congrArg Prod.snd hpair; simpa using this
        have hh : (⟨setL h.free_list (trailing_zeros l.blockSize) rest, h.user + l.size,
            h.allocated + l.blockSize, h.total⟩ : Heap) = h' := congrArg Prod.fst hpair
        subst hbp
        rw [← hh]
        have hcllt : trailing_zeros l.blockSize < h.free_list.length := by omega
        refine ⟨by simp [length_setL, hlen], ?_, rfl, rfl, rfl, ?_, by omega, hbcls⟩
        · intro k hk x hx
          rcases eq_or_ne k (trailing_zeros l.blockSize) with rfl | hkne
          · simp only [classList_setL_self _ hcllt] at hx
            apply hal _ hk
            rw [heqc, hcl]
            exact List.mem_cons_of_mem _ hx
          · rw [classList_setL_ne _ (Ne.symm hkne)] at hx
            exact hal _ hk x hx
        · have e1 := freeSum_set h.free_list (trailing_zeros l.blockSize) rest hcllt
          have hclcls : classList h.free_list (trailing_zeros l.blockSize) = b :: rest := by
            rw [heqc, hcl]
          rw [hclcls] at e1
          simp only [List.length_cons] at e1
          have hexp : 2 ^ trailing_zeros l.blockSize * (rest.length + 1) =
              2 ^ trailing_zeros l.blockSize * rest.length +
                2 ^ trailing_zeros l.blockSize := by ring
          rw [hexp] at e1
          simp only []
          linarith
    · obtain ⟨n, hn⟩ : ∃ n, i = trailing_zeros l.blockSize + n + 1 :=
        ⟨i - trailing_zeros l.blockSize - 1, by omega⟩
      subst hn
      obtain ⟨fl', hrun, hlen', htop, hmid, hcls2, hout, hsum⟩ :=
        heapSplitLoop_describe n h.free_list (trailing_zeros l.blockSize) b rest hlen
          (by omega) hcl
      have hsplit : heapSplitLoop
          (trailing_zeros l.blockSize + n + 1 - trailing_zeros l.blockSize)
          h.free_list (trailing_zeros l.blockSize) = some (fl', true) := by
        rw [show trailing_zeros l.blockSize + n + 1 - trailing_zeros l.blockSize = n + 1
          by omega]
        exact hrun
      have hget2 : getL fl' (trailing_zeros l.blockSize) =
          some (b :: (b + 2 ^ trailing_zeros l.blockSize) ::
            classList h.free_list (trailing_zeros l.blockSize)) := by
        rw [getL_eq_some (by omega), hcls2]
      rcases eq_or_ne b 0 with rfl | hb0
      · rw [heap_alloc_eq_pieces_null hfind hsplit hget2] at heq
        simp at heq
      · rw [heap_alloc_eq_pieces hfind hsplit hget2 hb0] at heq
        have hpair := Option.some_inj.mp heq
        have hbp : b = p := by have := congrArg Prod.snd hpair; simpa using this
        have hh : (⟨setL fl' (trailing_zeros l.blockSize)
            ((b + 2 ^ trailing_zeros l.blockSize) ::
              classList h.free_list (trailing_zeros l.blockSize)),
            h.user + l.size, h.allocated + l.blockSize, h.total⟩ : Heap) = h' :=
          congrArg Prod.fst hpair
        subst hbp
        rw [← hh]
        have hcllt : trailing_zeros l.blockSize < fl'.length := by omega
        refine ⟨by simp [length_setL, hlen'], ?_, rfl, rfl, rfl, ?_, by omega, hbcls⟩
        · intro k hk x hx
          rcases eq_or_ne k (trailing_zeros l.blockSize) with rfl | hkne
          · simp only [classList_setL_self _ hcllt] at hx
            rcases List.mem_cons.mp hx with rfl | hx2
            · rw [Nat.add_mod_right]; exact hbcls
            · exact hal _ hk x hx2
          · rw [classList_setL_ne _ (Ne.symm hkne)] at hx
            rcases Nat.lt_or_ge k (trailing_zeros l.blockSize) with hklt | hkge
            · rw [hout k (Or.inl hklt)] at hx
              exact hal _ hk x hx
            · rcases Nat.lt_or_ge k (trailing_zeros l.blockSize + n + 1) with hkmid | hktop
              · rw [hmid k (by omega) hkmid] at hx
                rcases List.mem_cons.mp hx with rfl | hx2
                · have hdvd : (2 : Nat) ^ k ∣ 2 ^ (trailing_zeros l.blockSize + n + 1) :=
                    pow_dvd_pow 2 (by omega)
                  rw [Nat.add_mod_right]
                  exact mod_eq_zero_of_dvd_mod hdvd hbal
                · exact hal _ hk x hx2
              · rcases Nat.eq_or_lt_of_le hktop with hkeq | hkgt
                · subst hkeq
                  rw [htop] at hx
                  apply hal _ hk
                  rw [hcl]
                  exact List.mem_cons_of_mem _ hx
                · rw [hout k (Or.inr hkgt)] at hx
                  exact hal _ hk x hx
        · have e1 := freeSum_set fl' (trailing_zeros l.blockSize)
            ((b + 2 ^ trailing_zeros l.blockSize) ::
              classList h.free_list (trailing_zeros l.blockSize)) hcllt
          rw [hcls2] at e1
          simp only [List.length_cons] at e1
          have hexp : 2 ^ trailing_zeros l.blockSize *
              ((classList h.free_list (trailing_zeros l.blockSize)).length + 1 + 1) =
              2 ^ trailing_zeros l.blockSize *
                ((classList h.free_list (trailing_zeros l.blockSize)).length + 1) +
                2 ^ trailing_zeros l.blockSize := by ring
          rw [hexp] at e1
          simp only []
          linarith

/-! ## Reachable heap states

`Reach h live A` holds when heap state `h` is produced from `Heap::new()` by
a sequence of `add_to_heap` calls, successful `alloc` calls (with valid
layouts: `align` a power of two, as the Rust `Layout` type guarantees), and
matching `dealloc` calls under the standard allocator discipline — `live`
lists the outstanding (pointer, layout) pairs, and `A` accumulates the
per-add increase of `total`, which by definition of `add_to_heap` is the sum
of the sizes of the blocks the region decomposition emitted. -/

def liveUser (live : List (Nat × Layout)) : Nat := (live.map (fun pl => pl.2.size)).sum

def liveAllocated (live : List (Nat × Layout)) : Nat :=
  (live.map (fun pl => pl.2.blockSize)).sum

/-- Remove the first occurrence of an outstanding allocation record. -/
def removeFirst (x : Nat × Layout) : List (Nat × Layout) → List (Nat × Layout)
  | [] => []
  | y :: ys => if y = x then ys else y :: removeFirst x ys

theorem perm_cons_removeFirst {x : Nat × Layout} : ∀ {live : List (Nat × Layout)},
    x ∈ live → live.Perm (x :: removeFirst x live) := by
  intro live
  induction live with
  | nil => intro h; simp at h
  | cons y ys ih =>
    intro hmem
    by_cases h : y = x
    · subst h
      rw [removeFirst, if_pos rfl]
    · have hx : x ∈ ys := by
        rcases List.mem_cons.mp hmem with h1 | h1
        · exact absurd h1.symm h
        · exact h1
      rw [removeFirst, if_neg h]
      have h1 : (y :: ys).Perm (y :: x :: removeFirst x ys) := List.Perm.cons y (ih hx)
      have h2 : (y :: x :: removeFirst x ys).Perm (x :: y :: removeFirst x ys) :=
        List.Perm.swap x y _
      exact h1.trans h2

theorem mem_of_mem_removeFirst {x z : Nat × Layout} : ∀ {live : List (Nat × Layout)},
    z ∈ removeFirst x live → z ∈ live := by
  intro live
  induction live with
  | nil => intro h; simp [removeFirst] at h
  | cons y ys ih =>
    intro hmem
    rw [removeFirst] at hmem
    by_cases h : y = x
    · rw [if_pos h] at hmem
      exact List.mem_cons_of_mem _ hmem
    · rw [if_neg h] at hmem
      rcases List.mem_cons.mp hmem with rfl | h1
      · exact List.mem_cons_self _ _
      · exact List.mem_cons_of_mem _ (ih h1)

inductive Reach : Heap → List (Nat × Layout) → Nat → Prop
  | init : Reach Heap.new [] 0
  | add {h live A s e h2} : Reach h live A → Heap.add_to_heap h s e = some h2 →
      Reach h2 live (A + (h2.total - h.total))
  | alloc {h live A l h2 p} : Reach h live A → IsPow2 l.align →
      Heap.alloc h l = some (h2, some p) → Reach h2 ((p, l) :: live) A
  | dealloc {h live A p l h2} : Reach h live A → (p, l) ∈ live →
      Heap.dealloc h p l = some h2 → Reach h2 (removeFirst (p, l) live) A

/-- The inductive invariant tying a reachable state to its live allocations:
well-formed 32-entry free lists, per-class alignment, per-allocation facts,
and the statistics accounting. -/
def HeapInv (h : Heap) (live : List (Nat × Layout)) (A : Nat) : Prop :=
  h.free_list.length = 32 ∧ AlignFL h.free_list ∧
  (∀ pl ∈ live, pl.2.size ≤ pl.2.blockSize ∧ pl.1 % pl.2.blockSize = 0 ∧
    pl.2.blockSize = 2 ^ trailing_zeros pl.2.blockSize) ∧
  h.user = liveUser live ∧ h.allocated = liveAllocated live ∧
  h.total = h.allocated + freeSum h.free_list ∧ h.total = A

theorem blockSize_eq_two_pow_tz (l : Layout) (hpow : IsPow2 l.align)
    (hlt : trailing_zeros l.blockSize < 64) :
    l.blockSize = 2 ^ trailing_zeros l.blockSize := by
  obtain ⟨k, hk⟩ := blockSize_pow2 l hpow
  rcases Nat.lt_or_ge k 64 with h64 | h64
  · rw [hk, trailing_zeros_two_pow k h64]
  · exfalso
    have h2 : trailing_zeros l.blockSize = 64 := by
      rw [hk]
      simp only [trailing_zeros]
      rw [if_neg (by positivity)]
      exact tzAux_two_pow_ge 64 k h64
    omega

theorem size_le_blockSize (l : Layout) (h : l.blockSize < 2 ^ 64) :
    l.size ≤ l.blockSize := by
  have h1 : next_power_of_two l.size ≤ l.blockSize := le_max_left _ _
  by_cases hs : l.size ≤ 1
  · have := blockSize_pos l
    omega
  · have hnpt : next_power_of_two l.size = 2 ^ bitLen (l.size - 1) := by
      unfold next_power_of_two
      rw [if_neg hs]
    have hlt : l.size - 1 < 2 ^ 64 := by
      by_contra hc
      have h63 : 63 < bitLen (l.size - 1) := bitLenAux_lower 64 _ 63 (by omega) (by norm_num)
      have h64b : bitLen (l.size - 1) ≤ 64 := bitLenAux_le 64 _
      have hnv : next_power_of_two l.size = 2 ^ 64 := by
        rw [hnpt, show bitLen (l.size - 1) = 64 by omega]
      omega
    have hup : l.size - 1 < 2 ^ bitLen (l.size - 1) := bitLenAux_lt 64 (l.size - 1) hlt
    rw [hnpt] at h1
    omega

theorem liveUser_cons (p : Nat) (l : Layout) (live : List (Nat × Layout)) :
    liveUser ((p, l) :: live) = l.size + liveUser live := by
  simp [liveUser]

theorem liveAllocated_cons (p : Nat) (l : Layout) (live : List (Nat × Layout)) :
    liveAllocated ((p, l) :: live) = l.blockSize + liveAllocated live := by
  simp [liveAllocated]

theorem liveUser_removeFirst {p : Nat} {l : Layout} {live : List (Nat × Layout)}
    (hmem : (p, l) ∈ live) :
    liveUser live = l.size + liveUser (removeFirst (p, l) live) := by
  have hperm := perm_cons_removeFirst hmem
  have := (hperm.map (fun pl => pl.2.size)).sum_eq
  simpa [liveUser] using this

theorem liveAllocated_removeFirst {p : Nat} {l : Layout} {live : List (Nat × Layout)}
    (hmem : (p, l) ∈ live) :
    liveAllocated live = l.blockSize + liveAllocated (removeFirst (p, l) live) := by
  have hperm := perm_cons_removeFirst hmem
  have := (hperm.map (fun pl => pl.2.blockSize)).sum_eq
  simpa [liveAllocated] using this

theorem reach_inv : ∀ {h : Heap} {live : List (Nat × Layout)} {A : Nat},
    Reach h live A → HeapInv h live A := by
  intro h live A hr
  induction hr with
  | init =>
    refine ⟨by simp [Heap.new], ?_, by simp, rfl, rfl, by decide, rfl⟩
    show ∀ k, k < 32 → ∀ b ∈ classList (List.replicate 32 []) k, b % 2 ^ k = 0
    decide
  | add hr hadd ih =>
    obtain ⟨hlen, hal, hlive, huser, halloc, htot, hA⟩ := ih
    obtain ⟨hlen2, himp, huser2, halloc2, hsum2, hmono⟩ := heap_add_inv hlen hadd
    exact ⟨hlen2, himp hal, hlive, by omega, by omega, by omega, by omega⟩
  | @alloc h0 live0 A0 l0 h20 p0 hr hpow heq ih =>
    obtain ⟨hlen, hal, hlive, huser, halloc, htot, hA⟩ := ih
    obtain ⟨hlen2, hal2, huser2, halloc2, htot2, hfs2, hcls32, hpal⟩ :=
      heap_alloc_some_inv hlen hal heq
    have hbs : l0.blockSize = 2 ^ trailing_zeros l0.blockSize :=
      blockSize_eq_two_pow_tz l0 hpow (by omega)
    have hbslt : l0.blockSize < 2 ^ 64 := by
      rw [hbs]
      exact Nat.pow_lt_pow_right (by norm_num) (by omega)
    refine ⟨hlen2, hal2, ?_, ?_, ?_, ?_, by omega⟩
    · intro pl hpl
      rcases List.mem_cons.mp hpl with rfl | hpl2
      · exact ⟨size_le_blockSize l0 hbslt, by rw [hbs]; exact hpal, hbs⟩
      · exact hlive pl hpl2
    · rw [liveUser_cons]; omega
    · rw [liveAllocated_cons]; omega
    · rw [← hbs] at hfs2
      omega
  | @dealloc h0 live0 A0 p0 l0 h20 hr hmem heq ih =>
    obtain ⟨hlen, hal, hlive, huser, halloc, htot, hA⟩ := ih
    have hfacts := hlive (p0, l0) hmem
    have hszle : l0.size ≤ l0.blockSize := hfacts.1
    have hpmod : p0 % l0.blockSize = 0 := hfacts.2.1
    have hbs : l0.blockSize = 2 ^ trailing_zeros l0.blockSize := hfacts.2.2
    obtain ⟨hlen2, hal2, huser2, halloc2, htot2, hfs2⟩ :=
      heap_dealloc_inv hlen hal hpmod hbs heq
    have huser_er := liveUser_removeFirst hmem
    have halloc_er := liveAllocated_removeFirst hmem
    refine ⟨hlen2, hal2, ?_, by omega, by omega, by omega, by omega⟩
    intro pl hpl
    exact hlive pl (mem_of_mem_removeFirst hpl)

/-- C7: every pointer returned by a successful `Heap::alloc` from a reachable
state is aligned to `max(layout.align, word_size)`.  This rests on the
invariant (part of `HeapInv`, established by `reach_inv`) that every free
block held in class `k` is aligned to `2 ^ k`: the returned block comes from
class `class = log2(blockSize)` and `max(align, 8)` divides
`blockSize = 2 ^ class`. -/
theorem alloc_result_aligned : ∀ (h : Heap) (live : List (Nat × Layout)) (A : Nat)
    (l : Layout) (h' : Heap) (p : Nat),
    Reach h live A → IsPow2 l.align → Heap.alloc h l = some (h', some p) →
    p % max l.align 8 = 0 := by
  intro h live A l h' p hr hpow heq
  obtain ⟨hlen, hal, _, _, _, _, _⟩ := reach_inv hr
  obtain ⟨_, _, _, _, _, _, hcls32, hpal⟩ := heap_alloc_some_inv hlen hal heq
  have hbs := blockSize_eq_two_pow_tz l hpow (by omega)
  obtain ⟨a, ha⟩ := max_pow2 hpow (⟨3, rfl⟩ : IsPow2 8)
  have hle : max l.align 8 ≤ l.blockSize := le_max_right _ _
  rw [ha] at hle ⊢
  rw [hbs] at hle
  have hac : a ≤ trailing_zeros l.blockSize := (Nat.pow_le_pow_iff_right (by norm_num)).mp hle
  exact mod_eq_zero_of_dvd_mod (pow_dvd_pow 2 hac) hpal

/-- Witness for `alloc_result_aligned`: heap over `[8, 16)`, allocation with
layout (size 8, align 8) returns pointer 8, divisible by `max(8, 8)`. -/
theorem alloc_result_aligned_w : 8 % max 8 8 = 0 :=
  alloc_result_aligned ⟨setL (List.replicate 32 []) 3 [8], 0, 0, 8⟩ [] (0 + (8 - 0)) ⟨8, 8⟩
    ⟨setL (List.replicate 32 []) 3 [], 8, 8, 8⟩ 8
    (@Reach.add Heap.new [] 0 8 16 ⟨setL (List.replicate 32 []) 3 [8], 0, 0, 8⟩
      Reach.init (by decide))
    ⟨3, rfl⟩ (by decide)

/-- C9: in every reachable heap state, `user ≤ allocated ≤ total`, and
`total` equals the accumulated sum of the sizes of all blocks ever added by
region-add operations (each `add_to_heap` raises `total` by exactly the sum
of sizes of the blocks its decomposition emitted, the quantity the `Reach`
relation accumulates; `alloc` and `dealloc` leave `total` unchanged). -/
theorem stats_invariant : ∀ (h : Heap) (live : List (Nat × Layout)) (A : Nat),
    Reach h live A → h.user ≤ h.allocated ∧ h.allocated ≤ h.total ∧ h.total = A := by
  intro h live A hr
  obtain ⟨hlen, hal, hlive, huser, halloc, htot, hA⟩ := reach_inv hr
  refine ⟨?_, by omega, hA⟩
  rw [huser, halloc]
  exact List.sum_le_sum fun pl hpl => (hlive pl hpl).1

/-- Witness for `stats_invariant`: heap over `[8, 16)` after one allocation
of layout (size 5, align 1): user 5 ≤ allocated 8 ≤ total 8 = added sum. -/
theorem stats_invariant_w :
    (⟨setL (List.replicate 32 []) 3 [], 5, 8, 8⟩ : Heap).user ≤
      (⟨setL (List.replicate 32 []) 3 [], 5, 8, 8⟩ : Heap).allocated ∧
    (⟨setL (List.replicate 32 []) 3 [], 5, 8, 8⟩ : Heap).allocated ≤
      (⟨setL (List.replicate 32 []) 3 [], 5, 8, 8⟩ : Heap).total ∧
    (⟨setL (List.replicate 32 []) 3 [], 5, 8, 8⟩ : Heap).total = 0 + (8 - 0) :=
  stats_invariant ⟨setL (List.replicate 32 []) 3 [], 5, 8, 8⟩ [(8, ⟨5, 1⟩)] (0 + (8 - 0))
    (@Reach.alloc ⟨setL (List.replicate 32 []) 3 [8], 0, 0, 8⟩ [] (0 + (8 - 0)) ⟨5, 1⟩
      ⟨setL (List.replicate 32 []) 3 [], 5, 8, 8⟩ 8
      (@Reach.add Heap.new [] 0 8 16 ⟨setL (List.replicate 32 []) 3 [8], 0, 0, 8⟩
        Reach.init (by decide))
      ⟨0, rfl⟩ (by decide))

/-! ## The alloc/dealloc round trip (C8) -/

theorem setL_setL (fl : FL) (i : Nat) (a b : List Nat) :
    setL (setL fl i a) i b = setL fl i b := by
  simp [setL, List.set_set]

theorem setL_eq_self {fl : FL} {i : Nat} {v : List Nat} (h : getL fl i = some v) :
    setL fl i v = fl := by
  have hlt : i < fl.length := getL_lt h
  apply List.ext_getElem?
  intro k
  rcases eq_or_ne k i with rfl | hk
  · rw [show setL fl k v = fl.set k v from rfl, List.getElem?_set_self hlt]
    exact ((classList_eq_of_getL h) ▸ (getL_eq_some hlt)).symm
  · exact List.getElem?_set_ne (Ne.symm hk)

/-- The free-list array part-way through the buddy re-merge ladder: relative
to the target array `fl`, the class `c + m` that supplied the block holds
`rest` (the block `b` popped off), every class in `[c, c + m)` holds the
split-off upper half `b + 2 ^ k` in front, and everything else is as in
`fl`. -/
def vstate (fl : FL) (b : Nat) (rest : List Nat) : Nat → Nat → FL
  | c, 0 => setL fl c rest
  | c, m + 1 => setL (vstate fl b rest (c + 1) m) c ((b + 2 ^ c) :: classList fl c)

theorem length_vstate (fl : FL) (b : Nat) (rest : List Nat) :
    ∀ m c, (vstate fl b rest c m).length = fl.length := by
  intro m
  induction m with
  | zero => intro c; rw [vstate, length_setL]
  | succ m ih => intro c; rw [vstate, length_setL, ih]

theorem classList_vstate_top (fl : FL) (b : Nat) (rest : List Nat) :
    ∀ m c, c + m < fl.length → classList (vstate fl b rest c m) (c + m) = rest := by
  intro m
  induction m with
  | zero =>
    intro c hc
    rw [vstate]
    simpa using classList_setL_self rest (by omega)
  | succ m ih =>
    intro c hc
    rw [vstate, classList_setL_ne _ (by omega)]
    have := ih (c + 1) (by omega)
    rw [show c + 1 + m = c + (m + 1) by omega] at this
    exact this

theorem classList_vstate_mid (fl : FL) (b : Nat) (rest : List Nat) :
    ∀ m c k, c ≤ k → k < c + m → k < fl.length →
      classList (vstate fl b rest c m) k = (b + 2 ^ k) :: classList fl k := by
  intro m
  induction m with
  | zero => intro c k h1 h2 _; omega
  | succ m ih =>
    intro c k h1 h2 hk
    rw [vstate]
    rcases eq_or_ne k c with rfl | hkc
    · exact classList_setL_self _ (by rw [length_vstate]; omega)
    · rw [classList_setL_ne _ (Ne.symm hkc)]
      exact ih (c + 1) k (by omega) (by omega) hk

theorem classList_vstate_out (fl : FL) (b : Nat) (rest : List Nat) :
    ∀ m c k, (k < c ∨ c + m < k) → classList (vstate fl b rest c m) k = classList fl k := by
  intro m
  induction m with
  | zero =>
    intro c k hk
    rw [vstate]
    exact classList_setL_ne _ (by omega)
  | succ m ih =>
    intro c k hk
    rw [vstate, classList_setL_ne _ (by omega)]
    exact ih (c + 1) k (by omega)

/-- The coalescing loop of `Heap::dealloc`, started on the ladder state with
the freed block `b` pushed at the bottom class `c`, re-merges `b` with each
split-off half and stops at class `c + m`, restoring exactly `fl` — provided
`b` is aligned for its original class and its buddy there is not free. -/
theorem heapDeallocLoop_restore : ∀ m c (fl : FL) b rest fuel, fl.length = 32 →
    c + m < 32 → m + 1 ≤ fuel →
    b % 2 ^ (c + m) = 0 →
    classList fl (c + m) = b :: rest →
    (b ^^^ 2 ^ (c + m)) ∉ classList fl (c + m) →
    heapDeallocLoop fuel
      (setL (vstate fl b rest c m) c (b :: classList (vstate fl b rest c m) c)) b c
      = some fl := by
  intro m
  induction m with
  | zero =>
    intro c fl b rest fuel hlen hc hfuel hal hcl hnb
    simp only [Nat.add_zero] at hal hcl hnb hc
    have hstate : setL (vstate fl b rest c 0) c (b :: classList (vstate fl b rest c 0) c)
        = fl := by
      rw [vstate, classList_setL_self rest (by omega), setL_setL]
      exact setL_eq_self (by rw [getL_eq_some (by omega : c < fl.length), hcl])
    rw [hstate]
    cases fuel with
    | zero => omega
    | succ f =>
      simp only [heapDeallocLoop, one_shl]
      rw [if_pos hc, if_neg hnb]
  | succ m ih =>
    intro c fl b rest fuel hlen hc hfuel hal hcl hnb
    have hlenv : (vstate fl b rest (c + 1) m).length = 32 := by rw [length_vstate, hlen]
    have hclt : c < fl.length := by omega
    have hcV : classList (vstate fl b rest c (m + 1)) c = (b + 2 ^ c) :: classList fl c := by
      rw [vstate]
      exact classList_setL_self _ (by omega)
    have hstate : setL (vstate fl b rest c (m + 1)) c
        (b :: classList (vstate fl b rest c (m + 1)) c) =
        setL (vstate fl b rest (c + 1) m) c (b :: (b + 2 ^ c) :: classList fl c) := by
      rw [hcV, vstate, setL_setL]
    rw [hstate]
    cases fuel with
    | zero => omega
    | succ f =>
      have hbal1 : b % 2 ^ (c + 1) = 0 :=
        mod_eq_zero_of_dvd_mod (pow_dvd_pow 2 (by omega)) hal
      have hbuddy : b ^^^ 2 ^ c = b + 2 ^ c := xor_two_pow_of_aligned hbal1
      have hp : (0 : Nat) < 2 ^ c := by positivity
      simp only [heapDeallocLoop, one_shl]
      rw [if_pos (by omega : c < 32)]
      have hsc : classList (setL (vstate fl b rest (c + 1) m) c
          (b :: (b + 2 ^ c) :: classList fl c)) c =
          b :: (b + 2 ^ c) :: classList fl c :=
        classList_setL_self _ (by rw [length_vstate]; omega)
      rw [hsc, hbuddy, if_pos (by simp)]
      have herase : ((b :: (b + 2 ^ c) :: classList fl c).erase (b + 2 ^ c)).tail =
          classList fl c := by
        rw [List.erase_cons, if_neg (by simp only [beq_iff_eq]; omega), List.erase_cons,
          if_pos (by simp), List.tail_cons]
      rw [herase, setL_setL]
      have hfl1 : setL (vstate fl b rest (c + 1) m) c (classList fl c) =
          vstate fl b rest (c + 1) m := by
        apply setL_eq_self
        rw [getL_eq_some (by omega : c < (vstate fl b rest (c + 1) m).length)]
        rw [classList_vstate_out fl b rest m (c + 1) c (Or.inl (by omega))]
      rw [hfl1]
      have hmin : min b (b + 2 ^ c) = b := min_eq_left (by omega)
      rw [hmin, if_pos (by omega : c + 1 < 32)]
      have := ih (c + 1) fl b rest f hlen (by omega) (by omega)
        (by rw [show c + 1 + m = c + (m + 1) by omega]; exact hal)
        (by rw [show c + 1 + m = c + (m + 1) by omega]; exact hcl)
        (by rw [show c + 1 + m = c + (m + 1) by omega]; exact hnb)
      exact this

theorem FL_ext {f1 f2 : FL} (hl : f1.length = f2.length)
    (h : ∀ k, k < f1.length → classList f1 k = classList f2 k) : f1 = f2 := by
  apply List.ext_getElem?
  intro k
  rcases Nat.lt_or_ge k f1.length with hk | hk
  · have e1 : getL f1 k = some (classList f1 k) := getL_eq_some hk
    have e2 : getL f2 k = some (classList f2 k) := getL_eq_some (hl ▸ hk)
    show getL f1 k = getL f2 k
    rw [e1, e2, h k hk]
  · show getL f1 k = getL f2 k
    simp only [getL]
    rw [List.getElem?_eq_none hk, List.getElem?_eq_none (by omega)]

theorem heap_dealloc_eq_pieces {fl : FL} {u a t : Nat} {ptr : Nat} {l : Layout}
    {s : List Nat} {fl1 : FL}
    (hget : getL fl (trailing_zeros l.blockSize) = some s)
    (hloop : heapDeallocLoop 33 (setL fl (trailing_zeros l.blockSize) (ptr :: s)) ptr
      (trailing_zeros l.blockSize) = some fl1) :
    Heap.dealloc ⟨fl, u, a, t⟩ ptr l = some ⟨fl1, u - l.size, a - l.blockSize, t⟩ := by
  simp only [Heap.dealloc, hget, hloop]

/-- No class holds both halves of a buddy pair: the maximal-coalescing
invariant under which `dealloc` exactly inverts `alloc`. -/
def NoBuddies (fl : FL) : Prop :=
  ∀ k, k < 32 → ∀ b ∈ classList fl k, (b ^^^ 2 ^ k) ∉ classList fl k

/-- C8 (amended): on a heap whose free lists are class-aligned and hold no
same-class buddy pair, a successful `alloc` followed by `dealloc` of the
returned pointer with the same layout restores the state exactly: the freed
block re-merges with precisely the halves the allocation split off, and the
statistics return to their previous values. -/
theorem alloc_dealloc_exact_roundtrip {h h1 : Heap} {l : Layout} {p : Nat}
    (hlen : h.free_list.length = 32) (halign : AlignFL h.free_list)
    (hnb : NoBuddies h.free_list)
    (heq : Heap.alloc h l = some (h1, some p)) :
    Heap.dealloc h1 p l = some h := by
  rcases hfind : findClassAux h.free_list (32 - trailing_zeros l.blockSize) with _ | i
  · rw [heap_alloc_eq_of_find_none hfind] at heq
    simp at heq
  · obtain ⟨hge, hi32, hne, hilen⟩ := findClassAux_some _ _ _ hfind
    have hcls32 : trailing_zeros l.blockSize ≤ 32 := by
      by_contra hc
      rw [show 32 - trailing_zeros l.blockSize = 0 by omega] at hfind
      exact findClassAux_zero_none hfind
    have hclsi : trailing_zeros l.blockSize ≤ i := by omega
    rcases hcl : classList h.free_list i with _ | ⟨b, rest⟩
    · exact absurd hcl hne
    have hbmem : b ∈ classList h.free_list i := by rw [hcl]; exact List.mem_cons_self _ _
    have hbal : b % 2 ^ i = 0 := halign i hi32 b hbmem
    have hnbi : (b ^^^ 2 ^ i) ∉ classList h.free_list i := hnb i hi32 b hbmem
    rcases Nat.eq_or_lt_of_le hclsi with heqc | hltc
    · have hsplit : heapSplitLoop (i - trailing_zeros l.blockSize) h.free_list
          (trailing_zeros l.blockSize) = some (h.free_list, true) := by
        rw [show i - trailing_zeros l.blockSize = 0 by omega]; rfl
      have hget2 : getL h.free_list (trailing_zeros l.blockSize) = some (b :: rest) := by
        rw [getL_eq_some (by omega : trailing_zeros l.blockSize < h.free_list.length),
          heqc, hcl]
      rcases eq_or_ne b 0 with rfl | hb0
      · rw [heap_alloc_eq_pieces_null hfind hsplit hget2] at heq
        simp at heq
      rw [heap_alloc_eq_pieces hfind hsplit hget2 hb0] at heq
      have hpair := Option.some_inj.mp heq
      have hbp : b = p := by have := congrArg Prod.snd hpair; simpa using this
      have hh : (⟨setL h.free_list (trailing_zeros l.blockSize) rest, h.user + l.size,
          h.allocated + l.blockSize, h.total⟩ : Heap) = h1 := congrArg Prod.fst hpair
      subst hbp
      subst hh
      have hloop0 := heapDeallocLoop_restore 0 (trailing_zeros l.blockSize) h.free_list b
        rest 33 hlen (by omega) (by omega)
        (by rw [Nat.add_zero, heqc]; exact hbal)
        (by rw [Nat.add_zero, heqc, hcl])
        (by rw [Nat.add_zero, heqc]; exact hnbi)
      have hcv : classList (vstate h.free_list b rest (trailing_zeros l.blockSize) 0)
          (trailing_zeros l.blockSize) = rest := by
        rw [vstate]
        exact classList_setL_self _ (by omega)
      rw [hcv] at hloop0
      rw [show vstate h.free_list b rest (trailing_zeros l.blockSize) 0 =
        setL h.free_list (trailing_zeros l.blockSize) rest from rfl] at hloop0
      have hgetd : getL (setL h.free_list (trailing_zeros l.blockSize) rest)
          (trailing_zeros l.blockSize) = some rest := by
        rw [getL_eq_some (by rw [length_setL]; omega)]
        rw [classList_setL_self _ (by omega)]
      rw [heap_dealloc_eq_pieces hgetd hloop0, Nat.add_sub_cancel, Nat.add_sub_cancel]
    · obtain ⟨n, hn⟩ : ∃ n, i = trailing_zeros l.blockSize + n + 1 :=
        ⟨i - trailing_zeros l.blockSize - 1, by omega⟩
      subst hn
      obtain ⟨fl', hrun, hlen', htop, hmid, hcls2, hout, hsum⟩ :=
        heapSplitLoop_describe n h.free_list (trailing_zeros l.blockSize) b rest hlen
          (by omega) hcl
      have hsplit : heapSplitLoop
          (trailing_zeros l.blockSize + n + 1 - trailing_zeros l.blockSize)
          h.free_list (trailing_zeros l.blockSize) = some (fl', true) := by
        rw [show trailing_zeros l.blockSize + n + 1 - trailing_zeros l.blockSize = n + 1
          by omega]
        exact hrun
      have hget2 : getL fl' (trailing_zeros l.blockSize) =
          some (b :: (b + 2 ^ trailing_zeros l.blockSize) ::
            classList h.free_list (trailing_zeros l.blockSize)) := by
        rw [getL_eq_some (by omega), hcls2]
      rcases eq_or_ne b 0 with rfl | hb0
      · rw [heap_alloc_eq_pieces_null hfind hsplit hget2] at heq
        simp at heq
      rw [heap_alloc_eq_pieces hfind hsplit hget2 hb0] at heq
      have hpair := Option.some_inj.mp heq
      have hbp : b = p := by have := congrArg Prod.snd hpair; simpa using this
      have hh : (⟨setL fl' (trailing_zeros l.blockSize)
          ((b + 2 ^ trailing_zeros l.blockSize) ::
            classList h.free_list (trailing_zeros l.blockSize)),
          h.user + l.size, h.allocated + l.blockSize, h.total⟩ : Heap) = h1 :=
        congrArg Prod.fst hpair
      subst hbp
      subst hh
      have hveq : setL fl' (trailing_zeros l.blockSize)
          ((b + 2 ^ trailing_zeros l.blockSize) ::
            classList h.free_list (trailing_zeros l.blockSize)) =
          vstate h.free_list b rest (trailing_zeros l.blockSize) (n + 1) := by
        rw [vstate]
        apply FL_ext
        · rw [length_setL, hlen', length_setL, length_vstate, hlen]
        · intro k hk
          rw [length_setL, hlen'] at hk
          rcases eq_or_ne k (trailing_zeros l.blockSize) with rfl | hkne
          · rw [classList_setL_self _ (by omega),
              classList_setL_self _ (by rw [length_vstate]; omega)]
          · rw [classList_setL_ne _ (Ne.symm hkne), classList_setL_ne _ (Ne.symm hkne)]
            rcases Nat.lt_or_ge k (trailing_zeros l.blockSize) with hklt | hkge
            · rw [hout k (Or.inl hklt),
                classList_vstate_out h.free_list b rest n (trailing_zeros l.blockSize + 1)
                  k (Or.inl (by omega))]
            · rcases Nat.lt_or_ge k (trailing_zeros l.blockSize + n + 1) with hkmid | hktop
              · rw [hmid k (by omega) (by omega),
                  classList_vstate_mid h.free_list b rest n
                    (trailing_zeros l.blockSize + 1) k (by omega) (by omega) (by omega)]
              · rcases Nat.eq_or_lt_of_le hktop with hkeq | hkgt
                · subst hkeq
                  have hvt := classList_vstate_top h.free_list b rest n
                    (trailing_zeros l.blockSize + 1) (by omega)
                  rw [show trailing_zeros l.blockSize + 1 + n =
                    trailing_zeros l.blockSize + n + 1 by omega] at hvt
                  rw [htop, hvt]
                · rw [hout k (Or.inr hkgt),
                    classList_vstate_out h.free_list b rest n
                      (trailing_zeros l.blockSize + 1) k (Or.inr (by omega))]
      have hgetd : getL (setL fl' (trailing_zeros l.blockSize)
          ((b + 2 ^ trailing_zeros l.blockSize) ::
            classList h.free_list (trailing_zeros l.blockSize)))
          (trailing_zeros l.blockSize) =
          some ((b + 2 ^ trailing_zeros l.blockSize) ::
            classList h.free_list (trailing_zeros l.blockSize)) := by
        rw [getL_eq_some (by rw [length_setL]; omega)]
        rw [classList_setL_self _ (by omega)]
      have hloopN := heapDeallocLoop_restore (n + 1) (trailing_zeros l.blockSize)
        h.free_list b rest 33 hlen (by omega) (by omega) hbal hcl hnbi
      have hcvN : classList (vstate h.free_list b rest (trailing_zeros l.blockSize)
          (n + 1)) (trailing_zeros l.blockSize) =
          (b + 2 ^ trailing_zeros l.blockSize) ::
            classList h.free_list (trailing_zeros l.blockSize) := by
        rw [vstate]
        exact classList_setL_self _ (by rw [length_vstate]; omega)
      rw [hcvN, ← hveq] at hloopN
      rw [heap_dealloc_eq_pieces hgetd hloopN, Nat.add_sub_cancel, Nat.add_sub_cancel]

/-- Witness for `alloc_dealloc_exact_roundtrip`: a heap holding the single
block `[16, 32)` of class 4; allocating 8 aligned 8 splits it, returns 16,
and deallocating 16 merges back to the original state. -/
theorem alloc_dealloc_exact_roundtrip_w :
    Heap.dealloc ⟨setL (List.replicate 32 []) 3 [24], 8, 8, 16⟩ 16 ⟨8, 8⟩ =
      some ⟨setL (List.replicate 32 []) 4 [16], 0, 0, 16⟩ :=
  @alloc_dealloc_exact_roundtrip ⟨setL (List.replicate 32 []) 4 [16], 0, 0, 16⟩
    ⟨setL (List.replicate 32 []) 3 [24], 8, 8, 16⟩ ⟨8, 8⟩ 16 (by decide)
    (show ∀ k, k < 32 → ∀ b ∈ classList (setL (List.replicate 32 []) 4 [16]) k,
      b % 2 ^ k = 0 by decide)
    (show ∀ k, k < 32 → ∀ b ∈ classList (setL (List.replicate 32 []) 4 [16]) k,
      (b ^^^ 2 ^ k) ∉ classList (setL (List.replicate 32 []) 4 [16]) k by decide)
    (by decide)
